import Mathlib

/-
Verification of the QAOA pipeline of the repository:
  * `src/qubo_from_python.py`  — symbolic polynomial → QUBO matrix → Pauli Hamiltonian
  * `src/qaoa_circuit.py`      — QAOA ansatz circuit construction
  * `src/qaoa_runner.py` and `src/core/qaoa_optimizer.py` — optimization loop bookkeeping

The Python code is shallowly embedded below.  Real (floating point) coefficients
are modelled by `ℚ`: the conversions are pure arithmetic (the spec demands exact
arithmetic) and no claim depends on rounding.  SymPy symbols are modelled by
natural-number identifiers; sorting identifiers lexicographically is modelled by
the total order on `ℕ` (only the fact that the identifiers are totally ordered
matters to any claim).  NumPy matrices are modelled by functions `ℕ → ℕ → ℚ`
together with an explicit dimension.
-/

/-- Single-qubit Pauli symbols appearing in this code base (`I`, `Z`, `X`). -/
inductive PChar : Type where
  | I : PChar
  | Z : PChar
  | X : PChar
deriving DecidableEq, Repr

/-- Numeric value of a binary assignment bit: `true ↦ 1`, `false ↦ 0`. -/
def xq (b : Bool) : ℚ := if b then 1 else 0

/-- Eigenvalue of `Z` on the computational-basis bit `b`: `z = 1 - 2*x`. -/
def zfac (b : Bool) : ℚ := 1 - 2 * xq b

/--
Insertion into a Python `dict` keyed by Pauli strings, as performed by
`pauli_dict[pauli_str] = pauli_dict.get(pauli_str, 0) + v` in
`q_matrix_to_hamiltonian` (src/qubo_from_python.py, lines 161-170): if the key
is present its value is incremented in place, otherwise the pair is appended
(Python dicts preserve insertion order).
-/
def dictAdd : List (List PChar × ℚ) → List PChar → ℚ → List (List PChar × ℚ)
  | [], k, v => [(k, v)]
  | (k1, v1) :: rest, k, v =>
      if k1 = k then (k1, v1 + v) :: rest else (k1, v1) :: dictAdd rest k v

/--
Embedding of `make_pauli_string` (src/qubo_from_python.py, lines 142-152):
start from `['I'] * num_qubits` and write `'Z'` at each listed position.
-/
def makePauliString (positions : List ℕ) (numQubits : ℕ) : List PChar :=
  positions.foldl (fun acc pos => acc.set pos PChar.Z) (List.replicate numQubits PChar.I)

/--
One iteration of the double loop of `q_matrix_to_hamiltonian`
(src/qubo_from_python.py, lines 154-170) for matrix entry `(i, j)`:
entries equal to zero are skipped, a diagonal entry contributes
`-0.5*Q[i,i]` on the single-`Z` string at `i`, an off-diagonal entry
contributes `0.25*Q[i,j]` on the `ZZ` string and `-0.25*Q[i,j]` on each
single-`Z` string.
-/
def quboStep (n : ℕ) (Q : ℕ → ℕ → ℚ) (d : List (List PChar × ℚ)) (i j : ℕ) :
    List (List PChar × ℚ) :=
  if Q i j = 0 then d
  else if i = j then
    dictAdd d (makePauliString [i] n) (-(1/2) * Q i j)
  else
    dictAdd
      (dictAdd
        (dictAdd d (makePauliString [i, j] n) ((1/4) * Q i j))
        (makePauliString [i] n) (-(1/4) * Q i j))
      (makePauliString [j] n) (-(1/4) * Q i j)

/--
The `pauli_dict` produced by the double loop
`for i in range(num_qubits): for j in range(i, num_qubits): ...` of
`q_matrix_to_hamiltonian`, listed in insertion order (`pauli_dict.items()`).
-/
def qMatrixToPauliList (n : ℕ) (Q : ℕ → ℕ → ℚ) : List (List PChar × ℚ) :=
  (List.range n).foldl
    (fun d i => (List.range' i (n - i)).foldl (fun d2 j => quboStep n Q d2 i j) d)
    []

/--
Models qiskit's `SparsePauliOp.from_list`, used at the end of
`q_matrix_to_hamiltonian` (line 174): it raises
`QiskitError("Input Pauli list is empty.")` when the list is empty and
otherwise stores exactly the given label/coefficient pairs (`to_list`
returns them back).
-/
def sparsePauliOpFromList (l : List (List PChar × ℚ)) :
    Except String (List (List PChar × ℚ)) :=
  if l.isEmpty then Except.error "Input Pauli list is empty." else Except.ok l

/--
Embedding of `q_matrix_to_hamiltonian` (src/qubo_from_python.py, lines
126-174).  The matrix dimension `Q.shape[0]` is the explicit argument `n`.
-/
def q_matrix_to_hamiltonian (n : ℕ) (Q : ℕ → ℕ → ℚ) :
    Except String (List (List PChar × ℚ)) :=
  sparsePauliOpFromList (qMatrixToPauliList n Q)

/--
Expectation factor of one Pauli symbol in a computational-basis state:
`⟨b|I|b⟩ = 1`, `⟨b|Z|b⟩ = 1 - 2b`, `⟨b|X|b⟩ = 0`; `zsignAux s b k` is the
product of the factors of `s` against bits `b k, b (k+1), …`.
-/
def zsignAux : List PChar → (ℕ → Bool) → ℕ → ℚ
  | [], _, _ => 1
  | c :: rest, b, k =>
      (match c with
        | PChar.I => 1
        | PChar.Z => zfac (b k)
        | PChar.X => 0) * zsignAux rest b (k + 1)

/-- Expectation value of a Pauli string in the basis state given by bits `b`. -/
def zsign (s : List PChar) (b : ℕ → Bool) : ℚ := zsignAux s b 0

/--
Exact expectation value of a Hamiltonian (list of Pauli-string/coefficient
pairs) in the computational-basis state whose bit at qubit `k` is `b k`.
-/
def hamExpect (h : List (List PChar × ℚ)) (b : ℕ → Bool) : ℚ :=
  (h.map (fun t => t.2 * zsign t.1 b)).sum

/--
Net coefficient associated to the Pauli string `s` in a Hamiltonian term
list (`0` when the string is absent; the construction keeps keys unique).
-/
def coeffOf (h : List (List PChar × ℚ)) (s : List PChar) : ℚ :=
  (h.map (fun t => if t.1 = s then t.2 else 0)).sum

/--
QUBO objective value `Σ_i Q[i,i]·x_i + Σ_{i<j} Q[i,j]·x_i·x_j` of the
bitstring whose bit at index `i` is `x i`.
-/
def quboObjective (n : ℕ) (Q : ℕ → ℕ → ℚ) (x : ℕ → Bool) : ℚ :=
  ((List.range n).map (fun i => Q i i * xq (x i))).sum +
    ((List.range n).map
      (fun i => ((List.range' (i + 1) (n - i - 1)).map
        (fun j => Q i j * xq (x i) * xq (x j))).sum)).sum

/--
The additive constant dropped by `q_matrix_to_hamiltonian` (it depends on
`Q` only): `-(Σ_i Q[i,i]/2 + Σ_{i<j} Q[i,j]/4)`.
-/
def quboOffset (n : ℕ) (Q : ℕ → ℕ → ℚ) : ℚ :=
  ((List.range n).map (fun i => -(1/2) * Q i i)).sum +
    ((List.range n).map
      (fun i => ((List.range' (i + 1) (n - i - 1)).map
        (fun j => -(1/4) * Q i j)).sum)).sum

@[simp] theorem PChar.Z_ne_I : (PChar.Z = PChar.I) = False := by simp

@[simp] theorem PChar.I_ne_Z : (PChar.I = PChar.Z) = False := by simp

@[simp] theorem PChar.X_ne_I : (PChar.X = PChar.I) = False := by simp

@[simp] theorem PChar.I_ne_X : (PChar.I = PChar.X) = False := by simp

@[simp] theorem PChar.X_ne_Z : (PChar.X = PChar.Z) = False := by simp

@[simp] theorem PChar.Z_ne_X : (PChar.Z = PChar.X) = False := by simp

/--
Weighted sum of the coefficients of a Hamiltonian term list against a weight
`w` on Pauli strings.  Both the basis-state expectation (`w = zsign · b`) and
the coefficient of one fixed string (`w` an indicator) are instances.
-/
def wsum (w : List PChar → ℚ) (d : List (List PChar × ℚ)) : ℚ :=
  (d.map (fun t => t.2 * w t.1)).sum

theorem hamExpect_eq_wsum (h : List (List PChar × ℚ)) (b : ℕ → Bool) :
    hamExpect h b = wsum (fun s => zsign s b) h := rfl

/-- Indicator weight of one fixed Pauli string. -/
def strInd (s0 : List PChar) : List PChar → ℚ := fun k => if k = s0 then 1 else 0

theorem coeffOf_eq_wsum (h : List (List PChar × ℚ)) (s : List PChar) :
    coeffOf h s = wsum (strInd s) h := by
  unfold coeffOf wsum strInd
  congr 1
  apply List.map_congr_left
  intro t _
  by_cases ht : t.1 = s <;> simp [ht]

theorem wsum_dictAdd (w : List PChar → ℚ) (d : List (List PChar × ℚ))
    (k : List PChar) (v : ℚ) :
    wsum w (dictAdd d k v) = wsum w d + v * w k := by
  induction d with
  | nil => simp [dictAdd, wsum]
  | cons hd tl ih =>
      obtain ⟨k1, v1⟩ := hd
      by_cases hk : k1 = k
      · subst hk
        simp [dictAdd, wsum]
        ring
      · simp [dictAdd, hk, wsum] at ih ⊢
        rw [ih]
        ring

theorem wsum_foldl {α : Type} (w : List PChar → ℚ)
    (f : List (List PChar × ℚ) → α → List (List PChar × ℚ)) (g : α → ℚ)
    (l : List α) (hf : ∀ d a, a ∈ l → wsum w (f d a) = wsum w d + g a) :
    ∀ d, wsum w (l.foldl f d) = wsum w d + (l.map g).sum := by
  induction l with
  | nil => simp
  | cons hd tl ih =>
      intro d
      simp only [List.foldl_cons, List.map_cons, List.sum_cons]
      rw [ih (fun d a ha => hf d a (List.mem_cons_of_mem hd ha)) (f d hd),
        hf d hd (List.mem_cons_self hd tl)]
      ring

/-- Net weighted contribution of matrix entry `(i, j)` in one `quboStep`. -/
def stepW (w : List PChar → ℚ) (n : ℕ) (Q : ℕ → ℕ → ℚ) (i j : ℕ) : ℚ :=
  if Q i j = 0 then 0
  else if i = j then -(1/2) * Q i j * w (makePauliString [i] n)
  else (1/4) * Q i j * w (makePauliString [i, j] n)
    + -(1/4) * Q i j * w (makePauliString [i] n)
    + -(1/4) * Q i j * w (makePauliString [j] n)

theorem wsum_quboStep (w : List PChar → ℚ) (n : ℕ) (Q : ℕ → ℕ → ℚ)
    (d : List (List PChar × ℚ)) (i j : ℕ) :
    wsum w (quboStep n Q d i j) = wsum w d + stepW w n Q i j := by
  unfold quboStep stepW
  by_cases hij : i = j
  · subst hij
    by_cases h0 : Q i i = 0
    · simp [h0]
    · simp [h0, wsum_dictAdd]
  · by_cases h0 : Q i j = 0
    · simp [h0]
    · simp [h0, hij, wsum_dictAdd]
      ring

theorem wsum_qMatrixToPauliList (w : List PChar → ℚ) (n : ℕ) (Q : ℕ → ℕ → ℚ) :
    wsum w (qMatrixToPauliList n Q) =
      ((List.range n).map
        (fun i => ((List.range' i (n - i)).map (fun j => stepW w n Q i j)).sum)).sum := by
  unfold qMatrixToPauliList
  have hin : ∀ (i : ℕ) (d : List (List PChar × ℚ)),
      wsum w (List.foldl (fun d2 j => quboStep n Q d2 i j) d (List.range' i (n - i))) =
        wsum w d + ((List.range' i (n - i)).map (fun j => stepW w n Q i j)).sum := by
    intro i d
    exact wsum_foldl w _ (fun j => stepW w n Q i j) _
      (fun d2 j _ => wsum_quboStep w n Q d2 i j) d
  have hout := wsum_foldl w
    (fun d i => List.foldl (fun d2 j => quboStep n Q d2 i j) d (List.range' i (n - i)))
    (fun i => ((List.range' i (n - i)).map (fun j => stepW w n Q i j)).sum)
    (List.range n) (fun d i _ => hin i d) []
  rw [hout]
  simp [wsum]

theorem replicate_set_Z (n i : ℕ) (hi : i < n) :
    (List.replicate n PChar.I).set i PChar.Z =
      List.replicate i PChar.I ++ PChar.Z :: List.replicate (n - i - 1) PChar.I := by
  induction n generalizing i with
  | zero => omega
  | succ m ih =>
      cases i with
      | zero => simp [List.replicate_succ]
      | succ k =>
          have hk : k < m := by omega
          simp [List.replicate_succ, ih k hk]

theorem makePauliString_single (n i : ℕ) (hi : i < n) :
    makePauliString [i] n =
      List.replicate i PChar.I ++ PChar.Z :: List.replicate (n - i - 1) PChar.I := by
  unfold makePauliString
  simp [replicate_set_Z n i hi]

theorem makePauliString_pair (n i j : ℕ) (hij : i < j) (hj : j < n) :
    makePauliString [i, j] n =
      List.replicate i PChar.I ++ PChar.Z ::
        (List.replicate (j - i - 1) PChar.I ++ PChar.Z :: List.replicate (n - j - 1) PChar.I) := by
  unfold makePauliString
  simp only [List.foldl_cons, List.foldl_nil]
  rw [replicate_set_Z n i (by omega)]
  have hlen : (List.replicate i PChar.I ++ [PChar.Z]).length ≤ j := by simp; omega
  have hdecomp : List.replicate i PChar.I ++ PChar.Z :: List.replicate (n - i - 1) PChar.I =
      (List.replicate i PChar.I ++ [PChar.Z]) ++ List.replicate (n - i - 1) PChar.I := by
    simp
  rw [hdecomp, List.set_append_right _ _ hlen]
  have hidx : j - (List.replicate i PChar.I ++ [PChar.Z]).length = j - i - 1 := by
    simp only [List.length_append, List.length_replicate, List.length_cons, List.length_nil]
    omega
  rw [hidx, replicate_set_Z (n - i - 1) (j - i - 1) (by omega)]
  have harith : n - i - 1 - (j - i - 1) - 1 = n - j - 1 := by omega
  rw [harith]
  simp

theorem zsignAux_append (l1 l2 : List PChar) (b : ℕ → Bool) (k : ℕ) :
    zsignAux (l1 ++ l2) b k = zsignAux l1 b k * zsignAux l2 b (k + l1.length) := by
  induction l1 generalizing k with
  | nil => simp [zsignAux]
  | cons c rest ih =>
      simp only [List.cons_append, zsignAux, List.length_cons, List.append_eq]
      rw [ih (k + 1)]
      have harg : k + 1 + rest.length = k + (rest.length + 1) := by omega
      rw [harg, mul_assoc]

theorem zsignAux_replicate_I (m : ℕ) (b : ℕ → Bool) (k : ℕ) :
    zsignAux (List.replicate m PChar.I) b k = 1 := by
  induction m generalizing k with
  | zero => simp [zsignAux]
  | succ m2 ih => simp [List.replicate_succ, zsignAux, ih]

theorem zsign_single (n i : ℕ) (hi : i < n) (b : ℕ → Bool) :
    zsign (makePauliString [i] n) b = zfac (b i) := by
  unfold zsign
  rw [makePauliString_single n i hi, zsignAux_append, zsignAux_replicate_I]
  simp [zsignAux, zsignAux_replicate_I]

theorem zsign_pair (n i j : ℕ) (hij : i < j) (hj : j < n) (b : ℕ → Bool) :
    zsign (makePauliString [i, j] n) b = zfac (b i) * zfac (b j) := by
  unfold zsign
  rw [makePauliString_pair n i j hij hj, zsignAux_append, zsignAux_replicate_I]
  simp only [zsignAux, List.length_replicate, one_mul, zero_add]
  rw [zsignAux_append, zsignAux_replicate_I]
  simp only [zsignAux, one_mul]
  rw [zsignAux_replicate_I]
  have harg : i + 1 + (List.replicate (j - i - 1) PChar.I).length = j := by
    simp only [List.length_replicate]
    omega
  rw [harg]
  ring

theorem sum_map_add {α : Type} (l : List α) (f g : α → ℚ) :
    (l.map (fun x => f x + g x)).sum = (l.map f).sum + (l.map g).sum := by
  induction l with
  | nil => simp
  | cons h t ih =>
      simp only [List.map_cons, List.sum_cons, ih]
      ring

theorem stepW_diag (n : ℕ) (Q : ℕ → ℕ → ℚ) (b : ℕ → Bool) (i : ℕ) (hi : i < n) :
    stepW (fun s => zsign s b) n Q i i = Q i i * xq (b i) + -(1/2) * Q i i := by
  unfold stepW
  by_cases h0 : Q i i = 0
  · simp [h0]
  · rw [if_neg h0, if_pos rfl]
    simp only []
    rw [zsign_single n i hi b]
    unfold zfac
    ring

theorem stepW_off (n : ℕ) (Q : ℕ → ℕ → ℚ) (b : ℕ → Bool) (i j : ℕ)
    (hij : i < j) (hj : j < n) :
    stepW (fun s => zsign s b) n Q i j = Q i j * xq (b i) * xq (b j) + -(1/4) * Q i j := by
  unfold stepW
  by_cases h0 : Q i j = 0
  · simp [h0]
  · have hne : ¬ i = j := by omega
    simp only [h0, hne, if_false]
    simp only [zsign_single n i (by omega) b, zsign_single n j hj b,
      zsign_pair n i j hij hj b]
    unfold zfac
    ring

theorem hamExpect_qMatrixToPauliList (n : ℕ) (Q : ℕ → ℕ → ℚ) (b : ℕ → Bool) :
    hamExpect (qMatrixToPauliList n Q) b = quboObjective n Q b + quboOffset n Q := by
  rw [hamExpect_eq_wsum, wsum_qMatrixToPauliList]
  have hmap : ∀ i ∈ List.range n,
      ((List.range' i (n - i)).map (fun j => stepW (fun s => zsign s b) n Q i j)).sum =
        (Q i i * xq (b i) + -(1/2) * Q i i)
          + (((List.range' (i + 1) (n - i - 1)).map
              (fun j => Q i j * xq (b i) * xq (b j))).sum
            + ((List.range' (i + 1) (n - i - 1)).map (fun j => -(1/4) * Q i j)).sum) := by
    intro i hi
    rw [List.mem_range] at hi
    have hr : List.range' i (n - i) = i :: List.range' (i + 1) (n - i - 1) := by
      have hsplit : n - i = (n - i - 1) + 1 := by omega
      conv_lhs => rw [hsplit, List.range'_succ]
    rw [hr]
    simp only [List.map_cons, List.sum_cons]
    rw [stepW_diag n Q b i hi]
    congr 1
    have hptw : ∀ j ∈ List.range' (i + 1) (n - i - 1),
        stepW (fun s => zsign s b) n Q i j =
          Q i j * xq (b i) * xq (b j) + -(1/4) * Q i j := by
      intro j hj
      rw [List.mem_range'_1] at hj
      exact stepW_off n Q b i j (by omega) (by omega)
    rw [List.map_congr_left hptw, sum_map_add]
  rw [List.map_congr_left hmap]
  have hre : ∀ i ∈ List.range n,
      (Q i i * xq (b i) + -(1/2) * Q i i)
        + (((List.range' (i + 1) (n - i - 1)).map
            (fun j => Q i j * xq (b i) * xq (b j))).sum
          + ((List.range' (i + 1) (n - i - 1)).map (fun j => -(1/4) * Q i j)).sum) =
      (Q i i * xq (b i)
          + ((List.range' (i + 1) (n - i - 1)).map
            (fun j => Q i j * xq (b i) * xq (b j))).sum)
        + (-(1/2) * Q i i
          + ((List.range' (i + 1) (n - i - 1)).map (fun j => -(1/4) * Q i j)).sum) := by
    intro i _
    ring
  rw [List.map_congr_left hre, sum_map_add, sum_map_add, sum_map_add]
  unfold quboObjective quboOffset
  ring

/-- Generic invariant preservation along a left fold. -/
theorem foldl_invariant {α β : Type} (P : β → Prop) (f : β → α → β) (l : List α)
    (hf : ∀ d a, P d → P (f d a)) : ∀ d, P d → P (l.foldl f d) := by
  induction l with
  | nil => intro d hd; simpa using hd
  | cons hd tl ih =>
      intro d hdp
      simpa using ih (f d hd) (hf d hd hdp)

theorem keys_dictAdd (d : List (List PChar × ℚ)) (k : List PChar) (v : ℚ) :
    (dictAdd d k v).map Prod.fst =
      if k ∈ d.map Prod.fst then d.map Prod.fst else d.map Prod.fst ++ [k] := by
  induction d with
  | nil => simp [dictAdd]
  | cons hd tl ih =>
      obtain ⟨k1, v1⟩ := hd
      by_cases hk : k1 = k
      · subst hk
        simp [dictAdd]
      · have hne : ¬ k = k1 := fun h => hk h.symm
        simp only [dictAdd, if_neg hk, List.map_cons, List.mem_cons, hne, false_or]
        rw [ih]
        by_cases hmem : k ∈ tl.map Prod.fst <;> simp [hmem]

theorem nodup_keys_dictAdd (d : List (List PChar × ℚ)) (k : List PChar) (v : ℚ)
    (hd : (d.map Prod.fst).Nodup) : ((dictAdd d k v).map Prod.fst).Nodup := by
  rw [keys_dictAdd]
  by_cases hmem : k ∈ d.map Prod.fst
  · simpa [hmem] using hd
  · simp [hmem, List.nodup_append, hd]

theorem nodup_keys_quboStep (n : ℕ) (Q : ℕ → ℕ → ℚ) (d : List (List PChar × ℚ))
    (i j : ℕ) (hd : (d.map Prod.fst).Nodup) :
    ((quboStep n Q d i j).map Prod.fst).Nodup := by
  unfold quboStep
  by_cases hij : i = j
  · subst hij
    by_cases h0 : Q i i = 0
    · simpa [h0] using hd
    · rw [if_neg h0, if_pos rfl]
      exact nodup_keys_dictAdd _ _ _ hd
  · by_cases h0 : Q i j = 0
    · simpa [h0] using hd
    · rw [if_neg h0, if_neg hij]
      exact nodup_keys_dictAdd _ _ _ (nodup_keys_dictAdd _ _ _ (nodup_keys_dictAdd _ _ _ hd))

theorem nodup_keys_qMatrixToPauliList (n : ℕ) (Q : ℕ → ℕ → ℚ) :
    ((qMatrixToPauliList n Q).map Prod.fst).Nodup := by
  unfold qMatrixToPauliList
  have hstep : ∀ (d : List (List PChar × ℚ)) (i : ℕ),
      (d.map Prod.fst).Nodup →
        ((List.foldl (fun d2 j => quboStep n Q d2 i j) d (List.range' i (n - i))).map
          Prod.fst).Nodup := by
    intro d i hdp
    exact foldl_invariant (fun d2 => (List.map Prod.fst d2).Nodup) _ (List.range' i (n - i))
      (fun d2 j h2 => nodup_keys_quboStep n Q d2 i j h2) d hdp
  exact foldl_invariant (fun d => (List.map Prod.fst d).Nodup) _ (List.range n)
    (fun d i hdp => hstep d i hdp) [] (by simp)

/-- The QUBO matrix of the end-to-end example `5*x0 + 3*x1 - 2*x0*x1` of the spec. -/
def Qex : ℕ → ℕ → ℚ := fun i j =>
  if i = 0 ∧ j = 0 then 5 else if i = 0 ∧ j = 1 then -2 else if i = 1 ∧ j = 1 then 3 else 0

/-- The Hamiltonian term list `q_matrix_to_hamiltonian` produces for `Qex`. -/
def Hex : List (List PChar × ℚ) :=
  [([PChar.Z, PChar.I], -2), ([PChar.Z, PChar.Z], -(1/2)), ([PChar.I, PChar.Z], -1)]

/-- A sample bit assignment used by concrete witnesses: bit 0 set, others clear. -/
def bex : ℕ → Bool := fun i => i == 0

theorem qMatrixToPauliList_Qex : qMatrixToPauliList 2 Qex = Hex := by
  have h1 : List.range 2 = [0, 1] := by decide
  have h2 : List.range' 0 2 = [0, 1] := by decide
  have h3 : List.range' 1 1 = [1] := by decide
  simp only [qMatrixToPauliList, h1, h2, h3]
  norm_num [quboStep, dictAdd, makePauliString, Qex, Hex, List.replicate_succ,
    List.set_cons_zero, List.set_cons_succ]

/--
C1: for every QUBO matrix `Q` of dimension `n` and every bitstring `b`, the
expectation value of the Hamiltonian returned by `q_matrix_to_hamiltonian` in
the computational-basis state for `b` equals the QUBO objective
`Σ_i Q[i,i]·b_i + Σ_{i<j} Q[i,j]·b_i·b_j` plus the additive constant
`quboOffset n Q`, which depends only on `Q` and not on `b`.
-/
theorem claim_C1 (n : ℕ) (Q : ℕ → ℕ → ℚ) (H : List (List PChar × ℚ)) (b : ℕ → Bool)
    (h : q_matrix_to_hamiltonian n Q = Except.ok H) :
    hamExpect H b = quboObjective n Q b + quboOffset n Q := by
  have hlist : qMatrixToPauliList n Q = H := by
    unfold q_matrix_to_hamiltonian sparsePauliOpFromList at h
    by_cases he : (qMatrixToPauliList n Q).isEmpty = true
    · rw [if_pos he] at h
      exact Except.noConfusion h
    · rw [if_neg he] at h
      exact Except.ok.inj h
  rw [← hlist]
  exact hamExpect_qMatrixToPauliList n Q b

theorem claim_C1_witness :
    q_matrix_to_hamiltonian 2 Qex = Except.ok Hex ∧
      hamExpect Hex bex = quboObjective 2 Qex bex + quboOffset 2 Qex := by
  have h : q_matrix_to_hamiltonian 2 Qex = Except.ok Hex := by
    rw [q_matrix_to_hamiltonian, qMatrixToPauliList_Qex]
    rfl
  exact ⟨h, claim_C1 2 Qex Hex bex h⟩

/--
Embedding of the list comprehension
`[i for i, p in enumerate(pauli_str) if p == c]` of `_apply_hamiltonian`
(src/qaoa_circuit.py, lines 59-60); `k` is the index of the first element.
-/
def posAux (c : PChar) : List PChar → ℕ → List ℕ
  | [], _ => []
  | a :: rest, k => (if a = c then [k] else []) ++ posAux c rest (k + 1)

/-- Positions of symbol `c` inside a Pauli string, in increasing order. -/
def positionsOf (c : PChar) (s : List PChar) : List ℕ := posAux c s 0

theorem posAux_append (c : PChar) (l1 l2 : List PChar) (k : ℕ) :
    posAux c (l1 ++ l2) k = posAux c l1 k ++ posAux c l2 (k + l1.length) := by
  induction l1 generalizing k with
  | nil => simp [posAux]
  | cons a rest ih =>
      simp only [List.cons_append, posAux, List.length_cons, List.append_eq]
      rw [ih (k + 1)]
      have harg : k + 1 + rest.length = k + (rest.length + 1) := by omega
      rw [harg, List.append_assoc]

theorem posAux_replicate_I (c : PChar) (hc : ¬ PChar.I = c) (m k : ℕ) :
    posAux c (List.replicate m PChar.I) k = [] := by
  induction m generalizing k with
  | zero => simp [posAux]
  | succ m2 ih => simp [List.replicate_succ, posAux, hc, ih]

theorem positionsOf_Z_single (n i : ℕ) (hi : i < n) :
    positionsOf PChar.Z (makePauliString [i] n) = [i] := by
  unfold positionsOf
  rw [makePauliString_single n i hi, posAux_append,
    posAux_replicate_I PChar.Z (by simp) i 0]
  simp [posAux, posAux_replicate_I PChar.Z (by simp)]

theorem positionsOf_X_single (n i : ℕ) (hi : i < n) :
    positionsOf PChar.X (makePauliString [i] n) = [] := by
  unfold positionsOf
  rw [makePauliString_single n i hi, posAux_append,
    posAux_replicate_I PChar.X (by simp) i 0]
  simp [posAux, posAux_replicate_I PChar.X (by simp)]

theorem positionsOf_Z_pair (n i j : ℕ) (hij : i < j) (hj : j < n) :
    positionsOf PChar.Z (makePauliString [i, j] n) = [i, j] := by
  unfold positionsOf
  rw [makePauliString_pair n i j hij hj, posAux_append,
    posAux_replicate_I PChar.Z (by simp) i 0]
  simp only [posAux, List.length_replicate, if_pos rfl, List.nil_append, zero_add]
  rw [posAux_append, posAux_replicate_I PChar.Z (by simp)]
  simp only [posAux, List.length_replicate, if_pos rfl, List.nil_append]
  rw [posAux_replicate_I PChar.Z (by simp)]
  have harg : i + 1 + (j - i - 1) = j := by omega
  rw [harg]
  simp

theorem positionsOf_X_pair (n i j : ℕ) (hij : i < j) (hj : j < n) :
    positionsOf PChar.X (makePauliString [i, j] n) = [] := by
  unfold positionsOf
  rw [makePauliString_pair n i j hij hj, posAux_append,
    posAux_replicate_I PChar.X (by simp) i 0]
  simp only [posAux, PChar.Z_ne_X, if_false, List.nil_append]
  rw [posAux_append, posAux_replicate_I PChar.X (by simp)]
  simp only [posAux, PChar.Z_ne_X, if_false, List.nil_append]
  rw [posAux_replicate_I PChar.X (by simp)]

theorem makePauliString_single_inj (n i i2 : ℕ) (hi : i < n) (hi2 : i2 < n)
    (h : makePauliString [i] n = makePauliString [i2] n) : i = i2 := by
  have hpos := positionsOf_Z_single n i hi
  rw [h, positionsOf_Z_single n i2 hi2] at hpos
  exact (List.cons.inj hpos).1.symm

theorem makePauliString_single_ne_pair (n i i2 j2 : ℕ) (hi : i < n)
    (hij : i2 < j2) (hj : j2 < n) :
    ¬ makePauliString [i] n = makePauliString [i2, j2] n := by
  intro h
  have hpos := positionsOf_Z_single n i hi
  rw [h, positionsOf_Z_pair n i2 j2 hij hj] at hpos
  exact absurd (congrArg List.length hpos) (by simp)

theorem makePauliString_pair_inj (n i j i2 j2 : ℕ) (hij : i < j) (hj : j < n)
    (hij2 : i2 < j2) (hj2 : j2 < n)
    (h : makePauliString [i, j] n = makePauliString [i2, j2] n) : i = i2 ∧ j = j2 := by
  have hpos := positionsOf_Z_pair n i j hij hj
  rw [h, positionsOf_Z_pair n i2 j2 hij2 hj2] at hpos
  have h1 := (List.cons.inj hpos).1
  have h2 := (List.cons.inj (List.cons.inj hpos).2).1
  exact ⟨h1.symm, h2.symm⟩

theorem sum_map_ite_eq (l : List ℕ) (i0 : ℕ) (f : ℕ → ℚ) (hnd : l.Nodup)
    (hmem : i0 ∈ l) :
    (l.map (fun i => if i = i0 then f i else 0)).sum = f i0 := by
  induction l with
  | nil => cases hmem
  | cons a rest ih =>
      by_cases hai : a = i0
      · subst hai
        have hnot : a ∉ rest := (List.nodup_cons.mp hnd).1
        have hz : (rest.map (fun i => if i = a then f i else 0)).sum = 0 := by
          have hcongr : ∀ i ∈ rest, (if i = a then f i else 0) = 0 := by
            intro i hir
            have hne : ¬ i = a := fun h => hnot (h ▸ hir)
            simp [hne]
          rw [List.map_congr_left hcongr]
          simp
        simp [hz]
      · have ha : i0 ∈ rest := by
          rcases List.mem_cons.mp hmem with h | h
          · exact absurd h.symm hai
          · exact h
        simp only [List.map_cons, List.sum_cons, hai, if_false, zero_add]
        exact ih (List.nodup_cons.mp hnd).2 ha

theorem sum_map_ite_eq_notmem (l : List ℕ) (i0 : ℕ) (f : ℕ → ℚ)
    (hmem : i0 ∉ l) :
    (l.map (fun i => if i = i0 then f i else 0)).sum = 0 := by
  have hcongr : ∀ i ∈ l, (if i = i0 then f i else 0) = 0 := by
    intro i hir
    have hne : ¬ i = i0 := fun h => hmem (h ▸ hir)
    simp [hne]
  rw [List.map_congr_left hcongr]
  simp

theorem sum_map_ite_lt (n i0 : ℕ) (h : i0 ≤ n) (f : ℕ → ℚ) :
    ((List.range n).map (fun i => if i < i0 then f i else 0)).sum =
      ((List.range i0).map f).sum := by
  have hsplit : List.range n = List.range i0 ++ List.range' i0 (n - i0) := by
    rw [List.range_eq_range']
    conv_lhs => rw [show n = (n - i0) + i0 by omega]
    rw [← List.range'_append_1 0 i0 (n - i0)]
    simp [List.range_eq_range']
  rw [hsplit, List.map_append, List.sum_append]
  have h1 : ∀ i ∈ List.range i0, (if i < i0 then f i else 0) = f i := by
    intro i hi
    rw [List.mem_range] at hi
    simp [hi]
  have h2 : ∀ i ∈ List.range' i0 (n - i0), (if i < i0 then f i else 0) = 0 := by
    intro i hi
    rw [List.mem_range'_1] at hi
    have : ¬ i < i0 := by omega
    simp [this]
  rw [List.map_congr_left h1, List.map_congr_left h2]
  simp

theorem stepW_single_diag (n : ℕ) (Q : ℕ → ℕ → ℚ) (i0 i : ℕ) (hi : i < n)
    (hi0 : i0 < n) :
    stepW (strInd (makePauliString [i0] n)) n Q i i =
      if i = i0 then -(1/2) * Q i i else 0 := by
  unfold stepW
  by_cases h0 : Q i i = 0
  · simp [h0]
  · rw [if_neg h0, if_pos rfl]
    by_cases hii : i = i0
    · subst hii
      simp [strInd]
    · have hne : ¬ makePauliString [i] n = makePauliString [i0] n :=
        fun h => hii (makePauliString_single_inj n i i0 hi hi0 h)
      simp [strInd, hne, hii]

theorem stepW_single_off (n : ℕ) (Q : ℕ → ℕ → ℚ) (i0 i j : ℕ) (hij : i < j)
    (hj : j < n) (hi0 : i0 < n) :
    stepW (strInd (makePauliString [i0] n)) n Q i j =
      (if i = i0 then -(1/4) * Q i j else 0) + (if j = i0 then -(1/4) * Q i j else 0) := by
  unfold stepW
  by_cases h0 : Q i j = 0
  · simp [h0]
  · have hne : ¬ i = j := by omega
    rw [if_neg h0, if_neg hne]
    have hpair : ¬ makePauliString [i, j] n = makePauliString [i0] n :=
      fun h => makePauliString_single_ne_pair n i0 i j hi0 hij hj h.symm
    have hsi : strInd (makePauliString [i0] n) (makePauliString [i] n) =
        if i = i0 then 1 else 0 := by
      unfold strInd
      by_cases hii : i = i0
      · subst hii
        simp
      · have hne2 : ¬ makePauliString [i] n = makePauliString [i0] n :=
          fun h => hii (makePauliString_single_inj n i i0 (by omega) hi0 h)
        simp [hne2, hii]
    have hsj : strInd (makePauliString [i0] n) (makePauliString [j] n) =
        if j = i0 then 1 else 0 := by
      unfold strInd
      by_cases hjj : j = i0
      · subst hjj
        simp
      · have hne2 : ¬ makePauliString [j] n = makePauliString [i0] n :=
          fun h => hjj (makePauliString_single_inj n j i0 hj hi0 h)
        simp [hne2, hjj]
    rw [hsi, hsj]
    simp only [strInd, hpair, if_false]
    by_cases hii : i = i0 <;> by_cases hjj : j = i0 <;> simp [hii, hjj]

theorem coeff_single_formula (n : ℕ) (Q : ℕ → ℕ → ℚ) (i0 : ℕ) (hi0 : i0 < n) :
    coeffOf (qMatrixToPauliList n Q) (makePauliString [i0] n) =
      -(1/2) * Q i0 i0
        + ((List.range i0).map (fun k => -(1/4) * Q k i0)).sum
        + ((List.range' (i0 + 1) (n - i0 - 1)).map (fun k => -(1/4) * Q i0 k)).sum := by
  rw [coeffOf_eq_wsum, wsum_qMatrixToPauliList]
  have hmap : ∀ i ∈ List.range n,
      ((List.range' i (n - i)).map
        (fun j => stepW (strInd (makePauliString [i0] n)) n Q i j)).sum =
        (if i = i0 then
            -(1/2) * Q i i
              + ((List.range' (i + 1) (n - i - 1)).map (fun k => -(1/4) * Q i k)).sum
          else 0)
          + (if i < i0 then -(1/4) * Q i i0 else 0) := by
    intro i hi
    rw [List.mem_range] at hi
    have hr : List.range' i (n - i) = i :: List.range' (i + 1) (n - i - 1) := by
      have hsplit : n - i = (n - i - 1) + 1 := by omega
      conv_lhs => rw [hsplit, List.range'_succ]
    rw [hr]
    simp only [List.map_cons, List.sum_cons]
    rw [stepW_single_diag n Q i0 i hi hi0]
    have hptw : ∀ j ∈ List.range' (i + 1) (n - i - 1),
        stepW (strInd (makePauliString [i0] n)) n Q i j =
          (if i = i0 then -(1/4) * Q i j else 0) + (if j = i0 then -(1/4) * Q i j else 0) := by
      intro j hj
      rw [List.mem_range'_1] at hj
      exact stepW_single_off n Q i0 i j (by omega) (by omega) hi0
    rw [List.map_congr_left hptw, sum_map_add]
    have hA : ((List.range' (i + 1) (n - i - 1)).map
        (fun j => if i = i0 then -(1/4) * Q i j else 0)).sum =
        if i = i0 then ((List.range' (i + 1) (n - i - 1)).map (fun k => -(1/4) * Q i k)).sum
        else 0 := by
      by_cases hii : i = i0
      · simp [hii]
      · simp [hii]
    have hB : ((List.range' (i + 1) (n - i - 1)).map
        (fun j => if j = i0 then -(1/4) * Q i j else 0)).sum =
        if i < i0 then -(1/4) * Q i i0 else 0 := by
      by_cases hlt : i < i0
      · rw [if_pos hlt]
        exact sum_map_ite_eq _ i0 (fun j => -(1/4) * Q i j) (List.nodup_range' _ _)
          (by rw [List.mem_range'_1]; omega)
      · rw [if_neg hlt]
        exact sum_map_ite_eq_notmem _ i0 (fun j => -(1/4) * Q i j)
          (by rw [List.mem_range'_1]; omega)
    rw [hA, hB]
    by_cases hii : i = i0 <;> simp [hii]
  rw [List.map_congr_left hmap, sum_map_add]
  rw [sum_map_ite_eq (List.range n) i0 _ (List.nodup_range n) (by rw [List.mem_range]; omega)]
  rw [sum_map_ite_lt n i0 (by omega) (fun k => -(1/4) * Q k i0)]
  ring

theorem stepW_pair_diag (n : ℕ) (Q : ℕ → ℕ → ℚ) (i0 j0 i : ℕ) (hi : i < n)
    (hij0 : i0 < j0) (hj0 : j0 < n) :
    stepW (strInd (makePauliString [i0, j0] n)) n Q i i = 0 := by
  unfold stepW
  by_cases h0 : Q i i = 0
  · simp [h0]
  · rw [if_neg h0, if_pos rfl]
    have hne : ¬ makePauliString [i] n = makePauliString [i0, j0] n :=
      makePauliString_single_ne_pair n i i0 j0 hi hij0 hj0
    simp [strInd, hne]

theorem stepW_pair_off (n : ℕ) (Q : ℕ → ℕ → ℚ) (i0 j0 i j : ℕ) (hij : i < j)
    (hj : j < n) (hij0 : i0 < j0) (hj0 : j0 < n) :
    stepW (strInd (makePauliString [i0, j0] n)) n Q i j =
      if i = i0 then (if j = j0 then (1/4) * Q i j else 0) else 0 := by
  unfold stepW
  by_cases h0 : Q i j = 0
  · simp only [h0, if_pos rfl]
    by_cases hii : i = i0 <;> by_cases hjj : j = j0 <;> simp [hii, hjj, h0]
  · have hne : ¬ i = j := by omega
    rw [if_neg h0, if_neg hne]
    have hsi : strInd (makePauliString [i0, j0] n) (makePauliString [i] n) = 0 := by
      have h2 : ¬ makePauliString [i] n = makePauliString [i0, j0] n :=
        makePauliString_single_ne_pair n i i0 j0 (by omega) hij0 hj0
      simp [strInd, h2]
    have hsj : strInd (makePauliString [i0, j0] n) (makePauliString [j] n) = 0 := by
      have h2 : ¬ makePauliString [j] n = makePauliString [i0, j0] n :=
        makePauliString_single_ne_pair n j i0 j0 hj hij0 hj0
      simp [strInd, h2]
    have hsp : strInd (makePauliString [i0, j0] n) (makePauliString [i, j] n) =
        if i = i0 then (if j = j0 then 1 else 0) else 0 := by
      by_cases hii : i = i0
      · by_cases hjj : j = j0
        · subst hii
          subst hjj
          simp [strInd]
        · have h2 : ¬ makePauliString [i, j] n = makePauliString [i0, j0] n := by
            intro h
            exact hjj (makePauliString_pair_inj n i j i0 j0 hij hj hij0 hj0 h).2
          rw [hii] at h2
          simp [strInd, h2, hii, hjj]
      · have h2 : ¬ makePauliString [i, j] n = makePauliString [i0, j0] n := by
          intro h
          exact hii (makePauliString_pair_inj n i j i0 j0 hij hj hij0 hj0 h).1
        simp [strInd, h2, hii]
    rw [hsi, hsj, hsp]
    by_cases hii : i = i0 <;> by_cases hjj : j = j0 <;> simp [hii, hjj]

theorem coeff_pair_formula (n : ℕ) (Q : ℕ → ℕ → ℚ) (i0 j0 : ℕ) (hij0 : i0 < j0)
    (hj0 : j0 < n) :
    coeffOf (qMatrixToPauliList n Q) (makePauliString [i0, j0] n) = (1/4) * Q i0 j0 := by
  rw [coeffOf_eq_wsum, wsum_qMatrixToPauliList]
  have hmap : ∀ i ∈ List.range n,
      ((List.range' i (n - i)).map
        (fun j => stepW (strInd (makePauliString [i0, j0] n)) n Q i j)).sum =
        if i = i0 then (1/4) * Q i j0 else 0 := by
    intro i hi
    rw [List.mem_range] at hi
    have hr : List.range' i (n - i) = i :: List.range' (i + 1) (n - i - 1) := by
      have hsplit : n - i = (n - i - 1) + 1 := by omega
      conv_lhs => rw [hsplit, List.range'_succ]
    rw [hr]
    simp only [List.map_cons, List.sum_cons]
    rw [stepW_pair_diag n Q i0 j0 i hi hij0 hj0, zero_add]
    have hptw : ∀ j ∈ List.range' (i + 1) (n - i - 1),
        stepW (strInd (makePauliString [i0, j0] n)) n Q i j =
          if i = i0 then (if j = j0 then (1/4) * Q i j else 0) else 0 := by
      intro j hj
      rw [List.mem_range'_1] at hj
      exact stepW_pair_off n Q i0 j0 i j (by omega) (by omega) hij0 hj0
    rw [List.map_congr_left hptw]
    by_cases hii : i = i0
    · rw [if_pos hii]
      have hrw : ((List.range' (i + 1) (n - i - 1)).map
          (fun j => if i = i0 then (if j = j0 then (1/4) * Q i j else 0) else 0)).sum =
          ((List.range' (i + 1) (n - i - 1)).map
          (fun j => if j = j0 then (1/4) * Q i j else 0)).sum := by
        congr 1
        apply List.map_congr_left
        intro j _
        rw [if_pos hii]
      rw [hrw]
      exact sum_map_ite_eq _ j0 (fun j => (1/4) * Q i j) (List.nodup_range' _ _)
        (by rw [List.mem_range'_1]; omega)
    · rw [if_neg hii]
      have hrw : ∀ j ∈ List.range' (i + 1) (n - i - 1),
          (if i = i0 then (if j = j0 then (1/4) * Q i j else 0) else 0) = 0 := by
        intro j _
        rw [if_neg hii]
      rw [List.map_congr_left hrw]
      simp
  rw [List.map_congr_left hmap]
  exact sum_map_ite_eq (List.range n) i0 (fun i => (1/4) * Q i j0) (List.nodup_range n)
    (by rw [List.mem_range]; omega)

/--
C2: `q_matrix_to_hamiltonian` maps each nonzero diagonal entry `Q[i,i]` to a
contribution `-0.5*Q[i,i]` on the single-`Z` string at `i`, and each nonzero
off-diagonal entry `Q[i,j]` (`i < j`) to `+0.25*Q[i,j]` on the `ZZ` string at
`{i,j}` and `-0.25*Q[i,j]` on each of the single-`Z` strings at `i` and `j`,
skipping zero entries and summing contributions that target the same string:
the net coefficient of the single-`Z` string at `i` is
`-0.5*Q[i,i] - 0.25*Σ_{k<i} Q[k,i] - 0.25*Σ_{k>i} Q[i,k]` and the net
coefficient of the `ZZ` string at `{i,j}` is `0.25*Q[i,j]` (the witness checks
the instance `Q = [[5,-2],[0,3]]`: `-2` on `Z0`, `-1` on `Z1`, `-0.5` on `Z0Z1`).
-/
theorem claim_C2 (n : ℕ) (Q : ℕ → ℕ → ℚ) (i j : ℕ) :
    (i < n →
      coeffOf (qMatrixToPauliList n Q) (makePauliString [i] n) =
        -(1/2) * Q i i + ((List.range i).map (fun k => -(1/4) * Q k i)).sum
          + ((List.range' (i + 1) (n - i - 1)).map (fun k => -(1/4) * Q i k)).sum)
    ∧ (i < j → j < n →
      coeffOf (qMatrixToPauliList n Q) (makePauliString [i, j] n) = (1/4) * Q i j) :=
  ⟨fun hi => coeff_single_formula n Q i hi, fun hij hj => coeff_pair_formula n Q i j hij hj⟩

theorem claim_C2_witness :
    (coeffOf (qMatrixToPauliList 2 Qex) (makePauliString [0] 2) =
        -(1/2) * Qex 0 0 + ((List.range 0).map (fun k => -(1/4) * Qex k 0)).sum
          + ((List.range' 1 1).map (fun k => -(1/4) * Qex 0 k)).sum)
      ∧ coeffOf (qMatrixToPauliList 2 Qex) (makePauliString [0, 1] 2) = (1/4) * Qex 0 1
      ∧ coeffOf (qMatrixToPauliList 2 Qex) (makePauliString [0] 2) = -2
      ∧ coeffOf (qMatrixToPauliList 2 Qex) (makePauliString [1] 2) = -1
      ∧ coeffOf (qMatrixToPauliList 2 Qex) (makePauliString [0, 1] 2) = -(1/2) := by
  refine ⟨(claim_C2 2 Qex 0 1).1 (by omega), (claim_C2 2 Qex 0 1).2 (by omega) (by omega),
    ?_, ?_, ?_⟩
  all_goals rw [qMatrixToPauliList_Qex]
  all_goals norm_num [coeffOf, Hex, makePauliString, Qex, List.replicate_succ,
    List.set_cons_zero, List.set_cons_succ]

/-- An all-cancelling QUBO matrix: the `Z0` contributions of `Q[0,0] = 2` and
`Q[0,1] = -4` sum to a net coefficient of exactly zero. -/
def Qc8 : ℕ → ℕ → ℚ := fun i j =>
  if i = 0 ∧ j = 0 then 2 else if i = 0 ∧ j = 1 then -4 else 0

theorem qMatrixToPauliList_Qc8 :
    qMatrixToPauliList 2 Qc8 =
      [([PChar.Z, PChar.I], 0), ([PChar.Z, PChar.Z], -1), ([PChar.I, PChar.Z], 1)] := by
  have h1 : List.range 2 = [0, 1] := by decide
  have h2 : List.range' 0 2 = [0, 1] := by decide
  have h3 : List.range' 1 1 = [1] := by decide
  simp only [qMatrixToPauliList, h1, h2, h3]
  norm_num [quboStep, dictAdd, makePauliString, Qc8, h2, h3, List.replicate_succ,
    List.set_cons_zero, List.set_cons_succ]

/--
C8, counterexample: for `Q = [[2,-4],[0,0]]` the returned Hamiltonian contains
the entry `(Z0, 0)` whose net coefficient is zero, refuting the claim that
zero-valued entries are dropped from the output (only matrix entries equal to
zero are skipped; net-zero coefficients arising from summation are kept).
-/
theorem claim_C8_counterexample :
    q_matrix_to_hamiltonian 2 Qc8 =
        Except.ok [([PChar.Z, PChar.I], 0), ([PChar.Z, PChar.Z], -1), ([PChar.I, PChar.Z], 1)]
      ∧ ([PChar.Z, PChar.I], (0 : ℚ)) ∈ qMatrixToPauliList 2 Qc8 := by
  constructor
  · rw [q_matrix_to_hamiltonian, qMatrixToPauliList_Qc8]
    rfl
  · rw [qMatrixToPauliList_Qc8]
    simp

theorem coeffOf_of_nodup (h : List (List PChar × ℚ))
    (hnd : (h.map Prod.fst).Nodup) :
    ∀ t ∈ h, t.2 = coeffOf h t.1 := by
  induction h with
  | nil =>
      intro t ht
      cases ht
  | cons hd tl ih =>
      intro t ht
      have hhd : hd.1 ∉ tl.map Prod.fst := (List.nodup_cons.mp hnd).1
      rcases List.mem_cons.mp ht with he | he
      · subst he
        unfold coeffOf
        simp only [List.map_cons, List.sum_cons, if_pos rfl]
        have hz : ∀ t2 ∈ tl, (if t2.1 = t.1 then t2.2 else 0) = 0 := by
          intro t2 h2
          have hne : ¬ t2.1 = t.1 := by
            intro hkey
            exact hhd (hkey ▸ List.mem_map_of_mem Prod.fst h2)
          simp [hne]
        rw [List.map_congr_left hz]
        simp
      · have hne : ¬ hd.1 = t.1 := by
          intro hkey
          exact hhd (hkey ▸ List.mem_map_of_mem Prod.fst he)
        have := ih (List.nodup_cons.mp hnd).2 t he
        unfold coeffOf at this ⊢
        simp only [List.map_cons, List.sum_cons, hne, if_false, zero_add]
        exact this

theorem mem_keys_dictAdd (s : List PChar) (d : List (List PChar × ℚ))
    (k : List PChar) (v : ℚ) :
    s ∈ (dictAdd d k v).map Prod.fst ↔ s ∈ d.map Prod.fst ∨ s = k := by
  rw [keys_dictAdd]
  by_cases hk : k ∈ d.map Prod.fst
  · rw [if_pos hk]
    constructor
    · exact fun h => Or.inl h
    · rintro (h | h)
      · exact h
      · exact h ▸ hk
  · rw [if_neg hk]
    simp [List.mem_append]

/-- Matrix entry `(i, j)` writes (possibly a zero sum) into the dict entry of
string `s`: the entry is nonzero and `s` is one of the strings the loop body
targets for `(i, j)`. -/
def contributesTo (n : ℕ) (Q : ℕ → ℕ → ℚ) (i j : ℕ) (s : List PChar) : Prop :=
  ¬ Q i j = 0 ∧
    ((i = j ∧ s = makePauliString [i] n) ∨
      (¬ i = j ∧ (s = makePauliString [i, j] n ∨ s = makePauliString [i] n ∨
        s = makePauliString [j] n)))

theorem mem_keys_quboStep (s : List PChar) (n : ℕ) (Q : ℕ → ℕ → ℚ)
    (d : List (List PChar × ℚ)) (i j : ℕ) :
    s ∈ (quboStep n Q d i j).map Prod.fst ↔
      s ∈ d.map Prod.fst ∨ contributesTo n Q i j s := by
  unfold quboStep contributesTo
  by_cases hij : i = j
  · subst hij
    by_cases h0 : Q i i = 0
    · simp [h0]
    · rw [if_neg h0, if_pos rfl, mem_keys_dictAdd]
      simp [h0]
  · by_cases h0 : Q i j = 0
    · simp [h0]
    · rw [if_neg h0, if_neg hij, mem_keys_dictAdd, mem_keys_dictAdd, mem_keys_dictAdd]
      simp only [h0, hij, not_false_iff, true_and, false_and, false_or]
      tauto

theorem mem_keys_foldl {α : Type} (s : List PChar)
    (f : List (List PChar × ℚ) → α → List (List PChar × ℚ)) (C : α → Prop)
    (l : List α)
    (hf : ∀ d a, a ∈ l → (s ∈ (f d a).map Prod.fst ↔ s ∈ d.map Prod.fst ∨ C a)) :
    ∀ d, s ∈ (l.foldl f d).map Prod.fst ↔ s ∈ d.map Prod.fst ∨ ∃ a ∈ l, C a := by
  induction l with
  | nil =>
      intro d
      simp
  | cons hd tl ih =>
      intro d
      rw [List.foldl_cons,
        ih (fun d2 a h2 => hf d2 a (List.mem_cons_of_mem hd h2)) (f d hd),
        hf d hd (List.mem_cons_self hd tl)]
      constructor
      · rintro ((h | h) | ⟨a, ha, hc⟩)
        · exact Or.inl h
        · exact Or.inr ⟨hd, List.mem_cons_self _ _, h⟩
        · exact Or.inr ⟨a, List.mem_cons_of_mem _ ha, hc⟩
      · rintro (h | ⟨a, ha, hc⟩)
        · exact Or.inl (Or.inl h)
        · rcases List.mem_cons.mp ha with he | he
          · subst he
            exact Or.inl (Or.inr hc)
          · exact Or.inr ⟨a, he, hc⟩

theorem mem_keys_qMatrixToPauliList (s : List PChar) (n : ℕ) (Q : ℕ → ℕ → ℚ) :
    s ∈ (qMatrixToPauliList n Q).map Prod.fst ↔
      ∃ i ∈ List.range n, ∃ j ∈ List.range' i (n - i), contributesTo n Q i j s := by
  unfold qMatrixToPauliList
  rw [mem_keys_foldl s _
    (fun i => ∃ j ∈ List.range' i (n - i), contributesTo n Q i j s) (List.range n)
    (fun d i _ => mem_keys_foldl s _ (fun j => contributesTo n Q i j s)
      (List.range' i (n - i)) (fun d2 j _ => mem_keys_quboStep s n Q d2 i j) d) []]
  simp

theorem mem_keys_pair_iff (n : ℕ) (Q : ℕ → ℕ → ℚ) (i0 j0 : ℕ) (hij0 : i0 < j0)
    (hj0 : j0 < n) :
    makePauliString [i0, j0] n ∈ (qMatrixToPauliList n Q).map Prod.fst ↔
      ¬ Q i0 j0 = 0 := by
  rw [mem_keys_qMatrixToPauliList]
  constructor
  · rintro ⟨i, hi, j, hj, h0, hcase⟩
    rw [List.mem_range] at hi
    rw [List.mem_range'_1] at hj
    rcases hcase with ⟨hij, hs⟩ | ⟨hij, hs | hs | hs⟩
    · exact absurd hs.symm (makePauliString_single_ne_pair n i i0 j0 (by omega) hij0 hj0)
    · obtain ⟨h1, h2⟩ := makePauliString_pair_inj n i0 j0 i j hij0 hj0 (by omega)
        (by omega) hs
      rw [h1, h2]
      exact h0
    · exact absurd hs.symm (makePauliString_single_ne_pair n i i0 j0 (by omega) hij0 hj0)
    · exact absurd hs.symm (makePauliString_single_ne_pair n j i0 j0 (by omega) hij0 hj0)
  · intro h0
    exact ⟨i0, by rw [List.mem_range]; omega, j0, by rw [List.mem_range'_1]; omega, h0,
      Or.inr ⟨by omega, Or.inl rfl⟩⟩

theorem mem_keys_single_iff (n : ℕ) (Q : ℕ → ℕ → ℚ) (i0 : ℕ) (hi0 : i0 < n) :
    makePauliString [i0] n ∈ (qMatrixToPauliList n Q).map Prod.fst ↔
      (¬ Q i0 i0 = 0 ∨ (∃ k, i0 < k ∧ k < n ∧ ¬ Q i0 k = 0)
        ∨ (∃ k, k < i0 ∧ ¬ Q k i0 = 0)) := by
  rw [mem_keys_qMatrixToPauliList]
  constructor
  · rintro ⟨i, hi, j, hj, h0, hcase⟩
    rw [List.mem_range] at hi
    rw [List.mem_range'_1] at hj
    rcases hcase with ⟨hij, hs⟩ | ⟨hij, hs | hs | hs⟩
    · have hii : i0 = i := makePauliString_single_inj n i0 i hi0 hi hs
      subst hij
      subst hii
      exact Or.inl h0
    · exact absurd hs (makePauliString_single_ne_pair n i0 i j hi0 (by omega) (by omega))
    · have hii : i0 = i := makePauliString_single_inj n i0 i hi0 hi hs
      subst hii
      exact Or.inr (Or.inl ⟨j, by omega, by omega, h0⟩)
    · have hjj : i0 = j := makePauliString_single_inj n i0 j hi0 (by omega) hs
      subst hjj
      exact Or.inr (Or.inr ⟨i, by omega, h0⟩)
  · rintro (h | ⟨k, hk1, hk2, hk⟩ | ⟨k, hk1, hk⟩)
    · exact ⟨i0, by rw [List.mem_range]; omega, i0, by rw [List.mem_range'_1]; omega, h,
        Or.inl ⟨rfl, rfl⟩⟩
    · exact ⟨i0, by rw [List.mem_range]; omega, k, by rw [List.mem_range'_1]; omega, hk,
        Or.inr ⟨by omega, Or.inr (Or.inl rfl)⟩⟩
    · exact ⟨k, by rw [List.mem_range]; omega, i0, by rw [List.mem_range'_1]; omega, hk,
        Or.inr ⟨by omega, Or.inr (Or.inr rfl)⟩⟩

/--
C8, amended: for every QUBO matrix, the Hamiltonian term list built by
`q_matrix_to_hamiltonian` contains at most one entry per Pauli string, and
the value stored with each entry is the coefficient-sum of all contributions
targeting that string; the `ZZ` entry at `{i,j}` is present exactly when the
matrix entry `Q[i,j]` is nonzero, and the single-`Z` entry at `i` is present
exactly when some matrix entry touching `i` is nonzero — so matrix entries
equal to zero are skipped, while output entries whose net coefficient sums to
zero are retained (their presence depends only on the nonzero matrix entries
that contributed, never on the net value).
-/
theorem claim_C8_amended (n : ℕ) (Q : ℕ → ℕ → ℚ) (i j : ℕ) :
    ((qMatrixToPauliList n Q).map Prod.fst).Nodup
      ∧ (∀ t ∈ qMatrixToPauliList n Q, t.2 = coeffOf (qMatrixToPauliList n Q) t.1)
      ∧ (i < j → j < n →
          (makePauliString [i, j] n ∈ (qMatrixToPauliList n Q).map Prod.fst ↔
            ¬ Q i j = 0))
      ∧ (i < n →
          (makePauliString [i] n ∈ (qMatrixToPauliList n Q).map Prod.fst ↔
            (¬ Q i i = 0 ∨ (∃ k, i < k ∧ k < n ∧ ¬ Q i k = 0)
              ∨ (∃ k, k < i ∧ ¬ Q k i = 0)))) :=
  ⟨nodup_keys_qMatrixToPauliList n Q,
    coeffOf_of_nodup _ (nodup_keys_qMatrixToPauliList n Q),
    fun hij hj => mem_keys_pair_iff n Q i j hij hj,
    fun hi => mem_keys_single_iff n Q i hi⟩

theorem claim_C8_witness :
    ((0:ℕ) < 1 ∧ (1:ℕ) < 2)
      ∧ ((qMatrixToPauliList 2 Qc8).map Prod.fst).Nodup
      ∧ (∀ t ∈ qMatrixToPauliList 2 Qc8, t.2 = coeffOf (qMatrixToPauliList 2 Qc8) t.1)
      ∧ (makePauliString [0, 1] 2 ∈ (qMatrixToPauliList 2 Qc8).map Prod.fst ↔
          ¬ Qc8 0 1 = 0)
      ∧ (makePauliString [0] 2 ∈ (qMatrixToPauliList 2 Qc8).map Prod.fst ↔
          (¬ Qc8 0 0 = 0 ∨ (∃ k, 0 < k ∧ k < 2 ∧ ¬ Qc8 0 k = 0)
            ∨ (∃ k, k < 0 ∧ ¬ Qc8 k 0 = 0))) := by
  have h := claim_C8_amended 2 Qc8 0 1
  exact ⟨⟨by decide, by decide⟩, h.1, h.2.1, h.2.2.1 (by decide) (by decide),
    h.2.2.2 (by decide)⟩

/-
Embedding of `expression_to_q` (src/qubo_from_python.py, lines 70-124).  The
input SymPy expression is taken after `sp.expand` and `as_coefficients_dict()`:
a list of monomials, each a coefficient together with the list of its variable
identifiers (repeated identifiers model powers, e.g. `[0, 0]` for `x0^2`; the
code only inspects `term.free_symbols`, the distinct identifiers).  Variable
identifiers are naturals, ordered as the lexicographic order on their names.
-/

/--
The variable list `sorted(expr.free_symbols, key=lambda s: s.name)`
(line 81): the distinct variables of the expression in increasing order; index
`i` of this list is matrix row/column `i` (`var_to_idx` / `idx_to_var`).
-/
def sortedVars (ts : List (ℚ × List ℕ)) : List ℕ :=
  List.insertionSort (fun a b => a ≤ b) (ts.flatMap (fun t => t.2)).dedup

/-- The in-place update `Q[a, b2] += v` on a matrix function (lines 108, 117). -/
def updQ (Q : ℕ → ℕ → ℚ) (a b2 : ℕ) (v : ℚ) : ℕ → ℕ → ℚ :=
  fun i j => if i = a ∧ j = b2 then Q i j + v else Q i j

/--
The accumulation loop `for term, coeff in terms.items()` of `expression_to_q`
(lines 93-122): constant monomials are skipped, single-variable monomials are
added at `Q[i, i]`, two-variable monomials at `Q[i, j]` with `i < j` (indices
are swapped when needed), and a monomial with three or more distinct variables
raises the unsupported-term-degree `ValueError` immediately.
-/
def buildQ (idx : ℕ → ℕ) : List (ℚ × List ℕ) → (ℕ → ℕ → ℚ) → Except String (ℕ → ℕ → ℚ)
  | [], Q => Except.ok Q
  | (c, m) :: rest, Q =>
      match m.dedup with
      | [] => buildQ idx rest Q
      | [v] => buildQ idx rest (updQ Q (idx v) (idx v) c)
      | [u, v] =>
          if idx u > idx v then buildQ idx rest (updQ Q (idx v) (idx u) c)
          else buildQ idx rest (updQ Q (idx u) (idx v) c)
      | _ => Except.error "QUBO only supports quadratic terms!"

/--
Embedding of `expression_to_q` (lines 70-124): returns the sorted variable
list (the `idx_to_var` map) together with the upper-triangular matrix, or the
unsupported-term-degree error.
-/
def expression_to_q (ts : List (ℚ × List ℕ)) :
    Except String (List ℕ × (ℕ → ℕ → ℚ)) :=
  match buildQ (fun v => (sortedVars ts).indexOf v) ts (fun _ _ => 0) with
  | Except.ok Q => Except.ok (sortedVars ts, Q)
  | Except.error e => Except.error e

/--
Value at the binary assignment `b` of the non-constant monomials of the
expanded expression (a variable repeated in a monomial contributes its value
once more, which changes nothing on binary values).
-/
def nonConstEval (ts : List (ℚ × List ℕ)) (b : ℕ → Bool) : ℚ :=
  ((ts.filter (fun t => !t.2.isEmpty)).map
    (fun t => t.1 * (t.2.map (fun v => xq (b v))).prod)).sum

theorem xq_sq (t : Bool) : xq t * xq t = xq t := by
  cases t <;> simp [xq]

theorem prod_map_zero_of_mem (m : List ℕ) (f : ℕ → ℚ) (a : ℕ) (ha : a ∈ m)
    (hf : f a = 0) : (m.map f).prod = 0 := by
  induction m with
  | nil => cases ha
  | cons hd tl ih =>
      rcases List.mem_cons.mp ha with h | h
      · subst h
        simp [hf]
      · simp [ih h]

theorem prod_map_dedup (m : List ℕ) (f : ℕ → ℚ) (hf : ∀ v, f v = 0 ∨ f v = 1) :
    (m.map f).prod = (m.dedup.map f).prod := by
  induction m with
  | nil => rfl
  | cons a rest ih =>
      by_cases hm : a ∈ rest
      · rw [List.dedup_cons_of_mem hm]
        simp only [List.map_cons, List.prod_cons]
        rw [← ih]
        rcases hf a with h0 | h1
        · rw [h0, prod_map_zero_of_mem rest f a hm h0]
          ring
        · rw [h1, one_mul]
      · rw [List.dedup_cons_of_not_mem hm]
        simp only [List.map_cons, List.prod_cons, ih]

theorem getD_indexOf (l : List ℕ) (v : ℕ) (hv : v ∈ l) :
    l.getD (l.indexOf v) 0 = v := by
  have hlt : l.indexOf v < l.length := List.indexOf_lt_length.mpr hv
  rw [List.getD_eq_getElem?_getD, List.getElem?_eq_getElem hlt]
  simp [List.getElem_indexOf hlt]

theorem quboObjective_updQ_diag (n : ℕ) (Q : ℕ → ℕ → ℚ) (x : ℕ → Bool) (a : ℕ)
    (v : ℚ) (ha : a < n) :
    quboObjective n (updQ Q a a v) x = quboObjective n Q x + v * xq (x a) := by
  unfold quboObjective
  have hdiag : ∀ i ∈ List.range n,
      updQ Q a a v i i * xq (x i) =
        Q i i * xq (x i) + (if i = a then v * xq (x i) else 0) := by
    intro i _
    unfold updQ
    by_cases hia : i = a
    · simp [hia]
      ring
    · simp [hia]
  have hcross : ∀ i ∈ List.range n,
      ((List.range' (i + 1) (n - i - 1)).map
        (fun j => updQ Q a a v i j * xq (x i) * xq (x j))).sum =
        ((List.range' (i + 1) (n - i - 1)).map
          (fun j => Q i j * xq (x i) * xq (x j))).sum := by
    intro i _
    congr 1
    apply List.map_congr_left
    intro j hj
    rw [List.mem_range'_1] at hj
    unfold updQ
    have hne : ¬ (i = a ∧ j = a) := by omega
    simp [hne]
  rw [List.map_congr_left hdiag, sum_map_add, List.map_congr_left hcross,
    sum_map_ite_eq (List.range n) a (fun i => v * xq (x i)) (List.nodup_range n)
      (by rw [List.mem_range]; omega)]
  ring

theorem quboObjective_updQ_off (n : ℕ) (Q : ℕ → ℕ → ℚ) (x : ℕ → Bool) (a c2 : ℕ)
    (v : ℚ) (hac : a < c2) (hc : c2 < n) :
    quboObjective n (updQ Q a c2 v) x =
      quboObjective n Q x + v * xq (x a) * xq (x c2) := by
  unfold quboObjective
  have hdiag : ∀ i ∈ List.range n,
      updQ Q a c2 v i i * xq (x i) = Q i i * xq (x i) := by
    intro i _
    unfold updQ
    have hne : ¬ (i = a ∧ i = c2) := by omega
    simp [hne]
  have hcross : ∀ i ∈ List.range n,
      ((List.range' (i + 1) (n - i - 1)).map
        (fun j => updQ Q a c2 v i j * xq (x i) * xq (x j))).sum =
        ((List.range' (i + 1) (n - i - 1)).map
          (fun j => Q i j * xq (x i) * xq (x j))).sum
          + (if i = a then v * xq (x a) * xq (x c2) else 0) := by
    intro i hi
    rw [List.mem_range] at hi
    have hptw : ∀ j ∈ List.range' (i + 1) (n - i - 1),
        updQ Q a c2 v i j * xq (x i) * xq (x j) =
          Q i j * xq (x i) * xq (x j)
            + (if i = a then (if j = c2 then v * xq (x i) * xq (x j) else 0) else 0) := by
      intro j hj
      rw [List.mem_range'_1] at hj
      unfold updQ
      by_cases hia : i = a
      · by_cases hjc : j = c2
        · simp [hia, hjc]
          ring
        · have hne : ¬ (i = a ∧ j = c2) := by omega
          simp [hne, hia, hjc]
      · have hne : ¬ (i = a ∧ j = c2) := by omega
        simp [hne, hia]
    rw [List.map_congr_left hptw, sum_map_add]
    congr 1
    by_cases hia : i = a
    · rw [if_pos hia]
      have hrw : ∀ j ∈ List.range' (i + 1) (n - i - 1),
          (if i = a then (if j = c2 then v * xq (x i) * xq (x j) else 0) else 0) =
            (if j = c2 then v * xq (x i) * xq (x j) else 0) := by
        intro j _
        rw [if_pos hia]
      rw [List.map_congr_left hrw,
        sum_map_ite_eq _ c2 (fun j => v * xq (x i) * xq (x j)) (List.nodup_range' _ _)
          (by rw [List.mem_range'_1]; omega)]
      rw [hia]
    · rw [if_neg hia]
      have hrw : ∀ j ∈ List.range' (i + 1) (n - i - 1),
          (if i = a then (if j = c2 then v * xq (x i) * xq (x j) else 0) else 0) = 0 := by
        intro j _
        rw [if_neg hia]
      rw [List.map_congr_left hrw]
      simp
  rw [List.map_congr_left hdiag, List.map_congr_left hcross, sum_map_add,
    sum_map_ite_eq (List.range n) a (fun _ => v * xq (x a) * xq (x c2))
      (List.nodup_range n) (by rw [List.mem_range]; omega)]
  ring

theorem buildQ_ok_eval (vars : List ℕ) (b : ℕ → Bool) :
    ∀ (ts : List (ℚ × List ℕ)) (Q0 : ℕ → ℕ → ℚ),
      (∀ t ∈ ts, t.2.dedup.length ≤ 2) →
      (∀ t ∈ ts, ∀ v ∈ t.2, v ∈ vars) →
      ∃ Q, buildQ (fun v => vars.indexOf v) ts Q0 = Except.ok Q ∧
        quboObjective vars.length Q (fun i => b (vars.getD i 0)) =
          quboObjective vars.length Q0 (fun i => b (vars.getD i 0)) + nonConstEval ts b := by
  intro ts
  induction ts with
  | nil =>
      intro Q0 _ _
      exact ⟨Q0, rfl, by simp [nonConstEval]⟩
  | cons t rest ih =>
      intro Q0 hdeg hvars
      obtain ⟨c, m⟩ := t
      have hdegr : ∀ t2 ∈ rest, t2.2.dedup.length ≤ 2 :=
        fun t2 h2 => hdeg t2 (List.mem_cons_of_mem _ h2)
      have hvarsr : ∀ t2 ∈ rest, ∀ v ∈ t2.2, v ∈ vars :=
        fun t2 h2 => hvars t2 (List.mem_cons_of_mem _ h2)
      have hmem : ∀ v ∈ m.dedup, v ∈ vars := by
        intro v hv
        exact hvars (c, m) (List.mem_cons_self _ _) v (List.mem_dedup.mp hv)
      have hprodf : ∀ v : ℕ, xq (b v) = 0 ∨ xq (b v) = 1 := by
        intro v
        cases b v <;> simp [xq]
      cases hm : m.dedup with
      | nil =>
          have hmnil : m = [] := (List.dedup_eq_nil m).mp hm
          obtain ⟨Q, hQ, hobj⟩ := ih Q0 hdegr hvarsr
          refine ⟨Q, ?_, ?_⟩
          · simp only [buildQ, hm]
            exact hQ
          · rw [hobj]
            subst hmnil
            simp [nonConstEval]
      | cons u tl =>
          cases tl with
          | nil =>
              -- one distinct variable: Q[i, i] += c
              have hu : u ∈ vars := hmem u (by simp [hm])
              have hiu : vars.indexOf u < vars.length := List.indexOf_lt_length.mpr hu
              obtain ⟨Q, hQ, hobj⟩ :=
                ih (updQ Q0 (vars.indexOf u) (vars.indexOf u) c) hdegr hvarsr
              refine ⟨Q, ?_, ?_⟩
              · simp only [buildQ, hm]
                exact hQ
              · have hbu : b (vars.getD (vars.indexOf u) 0) = b u := by
                  rw [getD_indexOf vars u hu]
                have hmne : ¬ m = [] := by
                  intro hnil
                  rw [hnil] at hm
                  simp at hm
                have hemp : m.isEmpty = false := by
                  cases m
                  · exact absurd rfl hmne
                  · rfl
                have hfe : List.filter (fun t => !t.2.isEmpty) ((c, m) :: rest) =
                    (c, m) :: List.filter (fun t => !t.2.isEmpty) rest := by
                  simp [List.filter_cons, hemp]
                have hprod : (m.map (fun v => xq (b v))).prod = xq (b u) := by
                  rw [prod_map_dedup m (fun v => xq (b v)) hprodf, hm]
                  simp
                rw [hobj, quboObjective_updQ_diag vars.length Q0 _ (vars.indexOf u) c hiu]
                simp only [nonConstEval, hfe, List.map_cons, List.sum_cons, hprod, hbu]
                ring
          | cons v tl2 =>
              cases tl2 with
              | nil =>
                  -- two distinct variables: Q[i, j] += c with i < j
                  have hu : u ∈ vars := hmem u (by simp [hm])
                  have hv : v ∈ vars := hmem v (by simp [hm])
                  have hiu : vars.indexOf u < vars.length := List.indexOf_lt_length.mpr hu
                  have hiv : vars.indexOf v < vars.length := List.indexOf_lt_length.mpr hv
                  have huv : ¬ u = v := by
                    have hnd := List.nodup_dedup m
                    rw [hm] at hnd
                    simpa using hnd
                  have hine : ¬ vars.indexOf u = vars.indexOf v := by
                    intro h
                    exact huv ((List.indexOf_inj hu hv).mp h)
                  have hmne : ¬ m = [] := by
                    intro hnil
                    rw [hnil] at hm
                    simp at hm
                  have hemp : m.isEmpty = false := by
                    cases m
                    · exact absurd rfl hmne
                    · rfl
                  have hfe : List.filter (fun t => !t.2.isEmpty) ((c, m) :: rest) =
                      (c, m) :: List.filter (fun t => !t.2.isEmpty) rest := by
                    simp [List.filter_cons, hemp]
                  have hprod : (m.map (fun w => xq (b w))).prod = xq (b u) * xq (b v) := by
                    rw [prod_map_dedup m (fun w => xq (b w)) hprodf, hm]
                    simp
                  have hbu : b (vars.getD (vars.indexOf u) 0) = b u := by
                    rw [getD_indexOf vars u hu]
                  have hbv : b (vars.getD (vars.indexOf v) 0) = b v := by
                    rw [getD_indexOf vars v hv]
                  by_cases hgt : vars.indexOf u > vars.indexOf v
                  · obtain ⟨Q, hQ, hobj⟩ :=
                      ih (updQ Q0 (vars.indexOf v) (vars.indexOf u) c) hdegr hvarsr
                    refine ⟨Q, ?_, ?_⟩
                    · simp only [buildQ, hm, if_pos hgt]
                      exact hQ
                    · rw [hobj, quboObjective_updQ_off vars.length Q0 _
                        (vars.indexOf v) (vars.indexOf u) c (by omega) hiu]
                      simp only [nonConstEval, hfe, List.map_cons, List.sum_cons,
                        hprod, hbu, hbv]
                      ring
                  · obtain ⟨Q, hQ, hobj⟩ :=
                      ih (updQ Q0 (vars.indexOf u) (vars.indexOf v) c) hdegr hvarsr
                    refine ⟨Q, ?_, ?_⟩
                    · simp only [buildQ, hm, if_neg hgt]
                      exact hQ
                    · rw [hobj, quboObjective_updQ_off vars.length Q0 _
                        (vars.indexOf u) (vars.indexOf v) c (by omega) hiv]
                      simp only [nonConstEval, hfe, List.map_cons, List.sum_cons,
                        hprod, hbu, hbv]
                      ring
              | cons w tl3 =>
                  exfalso
                  have := hdeg (c, m) (List.mem_cons_self _ _)
                  rw [hm] at this
                  simp at this

theorem quboObjective_zeroQ (n : ℕ) (x : ℕ → Bool) :
    quboObjective n (fun _ _ => 0) x = 0 := by
  unfold quboObjective
  have h1 : ∀ i ∈ List.range n, (fun _ _ => (0:ℚ)) i i * xq (x i) = 0 := by
    intro i _
    simp
  have h2 : ∀ i ∈ List.range n,
      ((List.range' (i + 1) (n - i - 1)).map
        (fun j => (fun _ _ => (0:ℚ)) i j * xq (x i) * xq (x j))).sum = 0 := by
    intro i _
    have hz : ∀ j ∈ List.range' (i + 1) (n - i - 1),
        (fun _ _ => (0:ℚ)) i j * xq (x i) * xq (x j) = 0 := by
      intro j _
      simp
    rw [List.map_congr_left hz]
    simp
  rw [List.map_congr_left h1, List.map_congr_left h2]
  simp

theorem mem_sortedVars (ts : List (ℚ × List ℕ)) :
    ∀ t ∈ ts, ∀ v ∈ t.2, v ∈ sortedVars ts := by
  intro t ht v hv
  unfold sortedVars
  rw [List.mem_insertionSort, List.mem_dedup, List.mem_flatMap]
  exact ⟨t, ht, hv⟩

/--
C4: for every polynomial of degree at most 2 over binary variables (every
expanded monomial has at most 2 distinct variables), reconstructing
`Σ_i Q[i,i]·x_i + Σ_{i<j} Q[i,j]·x_i·x_j` from the matrix returned by
`expression_to_q` reproduces the value of the non-constant monomials of the
expanded input on every binary assignment `b`.
-/
theorem claim_C4 (ts : List (ℚ × List ℕ)) (b : ℕ → Bool)
    (hdeg : ∀ t ∈ ts, t.2.dedup.length ≤ 2) :
    ∃ Q, expression_to_q ts = Except.ok (sortedVars ts, Q) ∧
      quboObjective (sortedVars ts).length Q (fun i => b ((sortedVars ts).getD i 0)) =
        nonConstEval ts b := by
  obtain ⟨Q, hQ, hobj⟩ :=
    buildQ_ok_eval (sortedVars ts) b ts (fun _ _ => 0) hdeg (mem_sortedVars ts)
  refine ⟨Q, ?_, ?_⟩
  · unfold expression_to_q
    rw [hQ]
  · rw [hobj, quboObjective_zeroQ]
    ring

/-- The expanded monomial list of the example `5*x0 + 3*x1 - 2*x0*x1`. -/
def tsEx : List (ℚ × List ℕ) := [(5, [0]), (3, [1]), (-2, [0, 1])]

theorem claim_C4_witness :
    (∀ t ∈ tsEx, t.2.dedup.length ≤ 2) ∧
      ∃ Q, expression_to_q tsEx = Except.ok (sortedVars tsEx, Q) ∧
        quboObjective (sortedVars tsEx).length Q
            (fun i => bex ((sortedVars tsEx).getD i 0)) =
          nonConstEval tsEx bex :=
  ⟨by decide, claim_C4 tsEx bex (by decide)⟩

theorem buildQ_error_of_big (idx : ℕ → ℕ) :
    ∀ (ts : List (ℚ × List ℕ)) (Q0 : ℕ → ℕ → ℚ),
      (∃ t ∈ ts, 3 ≤ t.2.dedup.length) →
      ∃ e, buildQ idx ts Q0 = Except.error e := by
  intro ts
  induction ts with
  | nil =>
      intro Q0 h
      obtain ⟨t, ht, _⟩ := h
      cases ht
  | cons t rest ih =>
      intro Q0 hbig
      obtain ⟨c, m⟩ := t
      cases hm : m.dedup with
      | nil =>
          have hrest : ∃ t2 ∈ rest, 3 ≤ t2.2.dedup.length := by
            obtain ⟨t2, ht2, h3⟩ := hbig
            rcases List.mem_cons.mp ht2 with he | he
            · rw [he, hm] at h3
              simp at h3
            · exact ⟨t2, he, h3⟩
          obtain ⟨e, he⟩ := ih Q0 hrest
          exact ⟨e, by simp only [buildQ, hm]; exact he⟩
      | cons u tl =>
          cases tl with
          | nil =>
              have hrest : ∃ t2 ∈ rest, 3 ≤ t2.2.dedup.length := by
                obtain ⟨t2, ht2, h3⟩ := hbig
                rcases List.mem_cons.mp ht2 with he | he
                · rw [he, hm] at h3
                  simp at h3
                · exact ⟨t2, he, h3⟩
              obtain ⟨e, he⟩ := ih (updQ Q0 (idx u) (idx u) c) hrest
              exact ⟨e, by simp only [buildQ, hm]; exact he⟩
          | cons v tl2 =>
              cases tl2 with
              | nil =>
                  have hrest : ∃ t2 ∈ rest, 3 ≤ t2.2.dedup.length := by
                    obtain ⟨t2, ht2, h3⟩ := hbig
                    rcases List.mem_cons.mp ht2 with he | he
                    · rw [he, hm] at h3
                      simp at h3
                    · exact ⟨t2, he, h3⟩
                  by_cases hgt : idx u > idx v
                  · obtain ⟨e, he⟩ := ih (updQ Q0 (idx v) (idx u) c) hrest
                    exact ⟨e, by simp only [buildQ, hm, if_pos hgt]; exact he⟩
                  · obtain ⟨e, he⟩ := ih (updQ Q0 (idx u) (idx v) c) hrest
                    exact ⟨e, by simp only [buildQ, hm, if_neg hgt]; exact he⟩
              | cons w tl3 =>
                  exact ⟨"QUBO only supports quadratic terms!",
                    by simp only [buildQ, hm]⟩

/--
C5: `expression_to_q` fails with the unsupported-term-degree error if and only
if some monomial of the expanded input has 3 or more distinct variables; in
the error case no QUBO matrix is returned (the result is `Except.error`, which
carries no matrix).
-/
theorem claim_C5 (ts : List (ℚ × List ℕ)) :
    (∃ e, expression_to_q ts = Except.error e) ↔
      ∃ t ∈ ts, 3 ≤ t.2.dedup.length := by
  constructor
  · rintro ⟨e, he⟩
    by_contra hno
    push_neg at hno
    have hdeg : ∀ t ∈ ts, t.2.dedup.length ≤ 2 := by
      intro t ht
      have := hno t ht
      omega
    obtain ⟨Q, hQ, _⟩ :=
      buildQ_ok_eval (sortedVars ts) (fun _ => false) ts (fun _ _ => 0) hdeg
        (mem_sortedVars ts)
    unfold expression_to_q at he
    rw [hQ] at he
    exact Except.noConfusion he
  · intro hbig
    obtain ⟨e, he⟩ :=
      buildQ_error_of_big (fun v => (sortedVars ts).indexOf v) ts (fun _ _ => 0) hbig
    refine ⟨e, ?_⟩
    unfold expression_to_q
    rw [he]

theorem foldl_invariant_mem {α β : Type} (P : β → Prop) (f : β → α → β) (l : List α)
    (hf : ∀ d a, a ∈ l → P d → P (f d a)) : ∀ d, P d → P (l.foldl f d) := by
  induction l with
  | nil =>
      intro d hd
      simpa using hd
  | cons hd tl ih =>
      intro d hdp
      simpa using ih (fun d2 a h2 hp => hf d2 a (List.mem_cons_of_mem hd h2) hp) (f d hd)
        (hf d hd (List.mem_cons_self hd tl) hdp)

theorem buildQ_const (idx : ℕ → ℕ) :
    ∀ (ts : List (ℚ × List ℕ)) (Q0 : ℕ → ℕ → ℚ), (∀ t ∈ ts, t.2 = []) →
      buildQ idx ts Q0 = Except.ok Q0 := by
  intro ts
  induction ts with
  | nil => intro Q0 _; rfl
  | cons t rest ih =>
      intro Q0 hts
      obtain ⟨c, m⟩ := t
      have hmnil : m = [] := hts (c, m) (List.mem_cons_self _ _)
      have hdd : m.dedup = [] := by
        rw [hmnil]
        rfl
      simp only [buildQ, hdd]
      exact ih Q0 (fun t2 h2 => hts t2 (List.mem_cons_of_mem _ h2))

/--
C10: for every QUBO matrix whose entries are all zero — including the 0-by-0
matrix produced by `expression_to_q` for a constant-only expression — the
Pauli term list built by `q_matrix_to_hamiltonian` is empty and the operator
construction fails with the empty-Pauli-list error, so no Hamiltonian is
returned.
-/
theorem claim_C10 (n : ℕ) (Q : ℕ → ℕ → ℚ) (ts : List (ℚ × List ℕ))
    (hQ0 : ∀ i j, i < n → j < n → Q i j = 0) (hts : ∀ t ∈ ts, t.2 = []) :
    qMatrixToPauliList n Q = []
      ∧ q_matrix_to_hamiltonian n Q = Except.error "Input Pauli list is empty."
      ∧ ∃ Q2, expression_to_q ts = Except.ok ([], Q2) := by
  have hnil : qMatrixToPauliList n Q = [] := by
    unfold qMatrixToPauliList
    refine foldl_invariant_mem (fun d => d = []) _ (List.range n) ?_ [] rfl
    intro d i hi hd
    rw [List.mem_range] at hi
    refine foldl_invariant_mem (fun d2 => d2 = []) _ (List.range' i (n - i)) ?_ d hd
    intro d2 j hj hd2
    rw [List.mem_range'_1] at hj
    have h0 : Q i j = 0 := hQ0 i j hi (by omega)
    simp [quboStep, h0, hd2]
  refine ⟨hnil, ?_, ?_⟩
  · rw [q_matrix_to_hamiltonian, hnil]
    rfl
  · have hsv : sortedVars ts = [] := by
      unfold sortedVars
      have hfm : ts.flatMap (fun t => t.2) = [] := by
        rw [List.eq_nil_iff_forall_not_mem]
        intro v hv
        rw [List.mem_flatMap] at hv
        obtain ⟨t, ht, hvt⟩ := hv
        rw [hts t ht] at hvt
        cases hvt
      rw [hfm]
      rfl
    refine ⟨fun _ _ => 0, ?_⟩
    unfold expression_to_q
    rw [buildQ_const _ ts _ hts, hsv]

theorem claim_C10_witness :
    (∀ i j, i < 2 → j < 2 → (fun _ _ => (0:ℚ)) i j = 0)
      ∧ (∀ t ∈ [((7:ℚ), ([]:List ℕ))], t.2 = [])
      ∧ qMatrixToPauliList 2 (fun _ _ => 0) = []
      ∧ q_matrix_to_hamiltonian 2 (fun _ _ => 0) =
          Except.error "Input Pauli list is empty."
      ∧ ∃ Q2, expression_to_q [((7:ℚ), ([]:List ℕ))] = Except.ok ([], Q2) := by
  have h := claim_C10 2 (fun _ _ => 0) [((7:ℚ), ([]:List ℕ))]
    (fun _ _ _ _ => rfl) (by decide)
  exact ⟨fun _ _ _ _ => rfl, by decide, h.1, h.2.1, h.2.2⟩

/-
Embedding of `QAOACircuit` (src/qaoa_circuit.py).  A built circuit is the
ordered list of appended gates; `qc.h(range(n))` contributes one `h` gate per
qubit, and `_apply_hamiltonian` appends `rz`/`rzz`/`rx` rotations.  Angles are
the exact rationals `2 * angle * coeff`.
-/

/-- One appended circuit operation. -/
inductive Gate : Type where
  | h : ℕ → Gate
  | rz : ℚ → ℕ → Gate
  | rzz : ℚ → ℕ → ℕ → Gate
  | rx : ℚ → ℕ → Gate
deriving DecidableEq, Repr

/--
Gates appended by one iteration of the `for pauli_str, coeff in
hamiltonian.to_list()` loop of `_apply_hamiltonian` (src/qaoa_circuit.py,
lines 56-67): `theta = 2 * angle * coeff`; one `rz` on the single `Z`
position, or one `rzz` on the two `Z` positions, then one `rx` on the single
`X` position when present.
-/
def applyPauliTerm (t : List PChar × ℚ) (angle : ℚ) : List Gate :=
  (match positionsOf PChar.Z t.1 with
    | [q] => [Gate.rz (2 * angle * t.2) q]
    | [q1, q2] => [Gate.rzz (2 * angle * t.2) q1 q2]
    | _ => []) ++
  (match positionsOf PChar.X t.1 with
    | [q] => [Gate.rx (2 * angle * t.2) q]
    | _ => [])

/-- Embedding of `_apply_hamiltonian` (src/qaoa_circuit.py, lines 50-67). -/
def applyHamiltonian (hham : List (List PChar × ℚ)) (angle : ℚ) : List Gate :=
  hham.flatMap (fun t => applyPauliTerm t angle)

/--
The fixed mixer built in the `QAOACircuit` constructor (src/qaoa_circuit.py,
lines 21-24): for each qubit `i` the string `"I"*i + "X" + "I"*(n-i-1)` with
unit coefficient.
-/
def mixerHamiltonian (n : ℕ) : List (List PChar × ℚ) :=
  (List.range n).map (fun i =>
    (List.replicate i PChar.I ++ PChar.X :: List.replicate (n - i - 1) PChar.I, 1))

/--
Embedding of `build_circuit` (src/qaoa_circuit.py, lines 26-48): reject a
parameter-count mismatch with a `ValueError` (modelled by a fixed message),
otherwise `h` on every qubit followed, for each layer, by the cost-Hamiltonian
gates with angle `gamma[layer]` and the mixer gates with angle `beta[layer]`.
-/
def build_circuit (n : ℕ) (costH : List (List PChar × ℚ)) (p : ℕ)
    (gamma beta : List ℚ) : Except String (List Gate) :=
  if gamma.length ≠ p ∨ beta.length ≠ p then
    Except.error "Expected p parameters"
  else
    Except.ok (((List.range n).map Gate.h) ++
      (List.range p).flatMap (fun l =>
        applyHamiltonian costH (gamma.getD l 0) ++
          applyHamiltonian (mixerHamiltonian n) (beta.getD l 0)))

/--
Modelled from the spec, for comparison with `build_circuit`: the cost layer
claimed by C6 — a Z-rotation with angle `2*gamma*c` for every single-`Z` term
and a ZZ-rotation with angle `2*gamma*c` for every two-`Z` term, and nothing
else.
-/
def specCostLayer (hham : List (List PChar × ℚ)) (g : ℚ) : List Gate :=
  hham.flatMap (fun t =>
    match positionsOf PChar.Z t.1 with
    | [q] => [Gate.rz (2 * g * t.2) q]
    | [q1, q2] => [Gate.rzz (2 * g * t.2) q1 q2]
    | _ => [])

/--
Modelled from the spec, for comparison with `build_circuit`: the mixer layer
claimed by C6 — an X-rotation with angle `2*beta*1` on every qubit.
-/
def specMixerLayer (n : ℕ) (bta : ℚ) : List Gate :=
  (List.range n).map (fun q => Gate.rx (2 * bta * 1) q)

/--
Modelled from the spec, for comparison with `build_circuit`: the claimed
`1 + 2p` logical layers — one initialization layer, then for each layer index
a cost layer followed by a mixer layer.
-/
def specLayers (n : ℕ) (hham : List (List PChar × ℚ)) (p : ℕ)
    (gamma beta : List ℚ) : List (List Gate) :=
  ((List.range n).map Gate.h) ::
    (List.range p).flatMap (fun l =>
      [specCostLayer hham (gamma.getD l 0), specMixerLayer n (beta.getD l 0)])

theorem posAux_eq_nil (c : PChar) (s : List PChar) (hc : ∀ a ∈ s, ¬ a = c) :
    ∀ k, posAux c s k = [] := by
  induction s with
  | nil => intro k; rfl
  | cons a rest ih =>
      intro k
      have ha : ¬ a = c := hc a (List.mem_cons_self _ _)
      simp only [posAux, ha, if_false, List.nil_append]
      exact ih (fun a2 h2 => hc a2 (List.mem_cons_of_mem _ h2)) (k + 1)

theorem flatten_map_singleton {α β : Type} (l : List α) (f : α → List β) :
    ((l.map (fun a => f a)).flatten) = l.flatMap f := rfl

theorem flatMap_congr {α β : Type} (l : List α) (f g : α → List β)
    (h : ∀ a ∈ l, f a = g a) : l.flatMap f = l.flatMap g := by
  unfold List.flatMap
  rw [List.map_congr_left h]

theorem flatten_flatMap_pair {α β : Type} (l : List α) (f g : α → List β) :
    (l.flatMap (fun a => [f a, g a])).flatten = l.flatMap (fun a => f a ++ g a) := by
  induction l with
  | nil => rfl
  | cons a rest ih =>
      simp only [List.flatMap_cons, List.flatten_append, ih]
      simp

theorem length_flatMap_pair {α β : Type} (l : List α) (f g : α → List β) :
    (l.flatMap (fun a => [f a, g a])).length = 2 * l.length := by
  induction l with
  | nil => rfl
  | cons a rest ih =>
      simp only [List.flatMap_cons, List.length_append, ih, List.length_cons]
      simp
      omega

theorem applyPauliTerm_no_X (t : List PChar × ℚ) (angle : ℚ)
    (hx : ∀ c ∈ t.1, ¬ c = PChar.X) :
    applyPauliTerm t angle =
      match positionsOf PChar.Z t.1 with
      | [q] => [Gate.rz (2 * angle * t.2) q]
      | [q1, q2] => [Gate.rzz (2 * angle * t.2) q1 q2]
      | _ => [] := by
  unfold applyPauliTerm
  rw [show positionsOf PChar.X t.1 = [] from posAux_eq_nil PChar.X t.1 hx 0]
  simp only [List.append_nil]

theorem applyHamiltonian_no_X (hham : List (List PChar × ℚ)) (angle : ℚ)
    (hx : ∀ t ∈ hham, ∀ c ∈ t.1, ¬ c = PChar.X) :
    applyHamiltonian hham angle = specCostLayer hham angle := by
  unfold applyHamiltonian specCostLayer
  apply flatMap_congr
  intro t ht
  exact applyPauliTerm_no_X t angle (hx t ht)

theorem positionsOf_mixer_X (n i : ℕ) :
    positionsOf PChar.X
      (List.replicate i PChar.I ++ PChar.X :: List.replicate (n - i - 1) PChar.I) = [i] := by
  unfold positionsOf
  rw [posAux_append, posAux_replicate_I PChar.X (by simp) i 0]
  simp only [posAux, if_pos rfl, List.length_replicate, List.nil_append, zero_add]
  rw [posAux_replicate_I PChar.X (by simp)]
  simp

theorem positionsOf_mixer_Z (n i : ℕ) :
    positionsOf PChar.Z
      (List.replicate i PChar.I ++ PChar.X :: List.replicate (n - i - 1) PChar.I) = [] := by
  unfold positionsOf
  rw [posAux_append, posAux_replicate_I PChar.Z (by simp) i 0]
  simp only [posAux, PChar.X_ne_Z, if_false, List.nil_append]
  rw [posAux_replicate_I PChar.Z (by simp)]

theorem flatMap_singleton_eq_map {α β : Type} (l : List α) (f : α → β) :
    l.flatMap (fun a => [f a]) = l.map f := by
  induction l with
  | nil => rfl
  | cons a rest ih => simp [ih]

theorem applyHamiltonian_mixer (n : ℕ) (bta : ℚ) :
    applyHamiltonian (mixerHamiltonian n) bta = specMixerLayer n bta := by
  unfold applyHamiltonian mixerHamiltonian specMixerLayer
  unfold List.flatMap
  rw [List.map_map]
  have hpt : ∀ i ∈ List.range n,
      (applyPauliTerm
          (List.replicate i PChar.I ++ PChar.X :: List.replicate (n - i - 1) PChar.I, 1)
          bta) = [Gate.rx (2 * bta * 1) i] := by
    intro i _
    unfold applyPauliTerm
    rw [show positionsOf PChar.Z
        (List.replicate i PChar.I ++ PChar.X :: List.replicate (n - i - 1) PChar.I) = []
      from positionsOf_mixer_Z n i]
    rw [show positionsOf PChar.X
        (List.replicate i PChar.I ++ PChar.X :: List.replicate (n - i - 1) PChar.I) = [i]
      from positionsOf_mixer_X n i]
    simp
  rw [show (List.map
      ((fun t => applyPauliTerm t bta) ∘ fun i =>
        (List.replicate i PChar.I ++ PChar.X :: List.replicate (n - i - 1) PChar.I, 1))
      (List.range n)) = List.map (fun i => [Gate.rx (2 * bta * 1) i]) (List.range n)
    from List.map_congr_left (fun i hi => hpt i hi)]
  have hfl : ∀ (l : List ℕ),
      (List.map (fun i => [Gate.rx (2 * bta * 1) i]) l).flatten =
        List.map (fun i => Gate.rx (2 * bta * 1) i) l := by
    intro l
    induction l with
    | nil => rfl
    | cons a rest ih =>
        simp only [List.map_cons, List.flatten_cons, ih]
        rfl
  exact hfl (List.range n)

/--
C6, counterexample: for the cost Hamiltonian consisting of the single-`X`
term `("X", 1)` on one qubit, depth 1, `gamma = [1]`, `beta = [0]`, the cost
layer of the built circuit contains an X-rotation with angle
`2*gamma[0]*c = 2` that the claimed layer structure (Z-rotations and
ZZ-rotations only, then the mixer) does not contain, so the claim fails for
Hamiltonians whose Pauli strings contain `X`.
-/
theorem claim_C6_counterexample :
    build_circuit 1 [([PChar.X], 1)] 1 [1] [0] =
        Except.ok [Gate.h 0, Gate.rx 2 0, Gate.rx 0 0]
      ∧ ¬ build_circuit 1 [([PChar.X], 1)] 1 [1] [0] =
          Except.ok (specLayers 1 [([PChar.X], 1)] 1 [1] [0]).flatten := by
  have hx : positionsOf PChar.X [PChar.X] = [0] := by
    unfold positionsOf posAux
    simp [posAux]
  have hz : positionsOf PChar.Z [PChar.X] = [] := by
    unfold positionsOf posAux
    simp [posAux]
  have hr1 : List.range 1 = [0] := by decide
  have h1 : build_circuit 1 [([PChar.X], 1)] 1 [1] [0] =
      Except.ok [Gate.h 0, Gate.rx 2 0, Gate.rx 0 0] := by
    unfold build_circuit
    rw [if_neg (by simp)]
    congr 1
    unfold applyHamiltonian applyPauliTerm mixerHamiltonian
    simp only [hr1, List.map_cons, List.map_nil, List.flatMap_cons, List.flatMap_nil,
      List.replicate_zero, List.nil_append, List.getD_cons_zero, hx, hz]
    norm_num [hx, hz]
  have h2 : (specLayers 1 [([PChar.X], 1)] 1 [1] [0]).flatten =
      [Gate.h 0, Gate.rx 0 0] := by
    unfold specLayers specCostLayer specMixerLayer
    simp only [hr1, List.flatMap_cons, List.flatMap_nil, List.map_cons, List.map_nil,
      List.getD_cons_zero, hz, List.flatten_cons, List.flatten_nil]
    norm_num
  refine ⟨h1, ?_⟩
  rw [h1, h2]
  intro hcontra
  simp at hcontra

/--
C6, amended: for every cost Hamiltonian over `n` qubits whose Pauli strings
contain only `I` and `Z` (as every Hamiltonian produced by
`q_matrix_to_hamiltonian` does), depth `p`, and parameter vectors of length
`p`, `build_circuit` produces exactly the `1 + 2p` logical layers of the
claim: one uniform-superposition gate per qubit, then per layer a Z-rotation
with angle `2*gamma[l]*c` for every single-`Z` term and a ZZ-rotation with
angle `2*gamma[l]*c` for every two-`Z` term, followed by an X-rotation with
angle `2*beta[l]*1` on every qubit from the fixed unit-coefficient mixer.
-/
theorem claim_C6_amended (n p : ℕ) (hham : List (List PChar × ℚ))
    (gamma beta : List ℚ) (hzonly : ∀ t ∈ hham, ∀ c ∈ t.1, ¬ c = PChar.X)
    (hg : gamma.length = p) (hb : beta.length = p) :
    build_circuit n hham p gamma beta =
        Except.ok (specLayers n hham p gamma beta).flatten
      ∧ (specLayers n hham p gamma beta).length = 1 + 2 * p := by
  constructor
  · unfold build_circuit
    rw [if_neg (by simp [hg, hb])]
    congr 1
    unfold specLayers
    rw [List.flatten_cons, flatten_flatMap_pair]
    congr 1
    apply flatMap_congr
    intro l _
    rw [applyHamiltonian_no_X hham _ hzonly, applyHamiltonian_mixer]
  · unfold specLayers
    rw [List.length_cons, length_flatMap_pair]
    simp
    omega

theorem claim_C6_witness :
    (∀ t ∈ [([PChar.Z], (1:ℚ))], ∀ c ∈ t.1, ¬ c = PChar.X)
      ∧ build_circuit 1 [([PChar.Z], (1:ℚ))] 1 [1] [2] =
          Except.ok (specLayers 1 [([PChar.Z], (1:ℚ))] 1 [1] [2]).flatten
      ∧ (specLayers 1 [([PChar.Z], (1:ℚ))] 1 [1] [2]).length = 1 + 2 * 1 := by
  have h := claim_C6_amended 1 1 [([PChar.Z], (1:ℚ))] [1] [2] (by decide) rfl rfl
  exact ⟨by decide, h.1, h.2⟩

/--
C7: for every depth `p ≥ 1` and parameter vectors with `len(gamma) ≠ p` or
`len(beta) ≠ p`, in either direction, `build_circuit` raises the
parameter-count mismatch error; the `Except.error` result carries no gates,
so no gate is appended.
-/
theorem claim_C7 (n : ℕ) (hham : List (List PChar × ℚ)) (p : ℕ)
    (gamma beta : List ℚ) (_hp : 1 ≤ p)
    (hmis : ¬ gamma.length = p ∨ ¬ beta.length = p) :
    build_circuit n hham p gamma beta = Except.error "Expected p parameters" := by
  unfold build_circuit
  rw [if_pos]
  exact hmis

theorem claim_C7_witness :
    ((1:ℕ) ≤ 1
      ∧ build_circuit 2 Hex 1 [] [(0:ℚ)] = Except.error "Expected p parameters")
      ∧ ((1:ℕ) ≤ 1
        ∧ build_circuit 2 Hex 1 [(1:ℚ), 2] [(0:ℚ)] =
            Except.error "Expected p parameters") :=
  ⟨⟨le_refl 1, claim_C7 2 Hex 1 [] [(0:ℚ)] (le_refl 1) (Or.inl (by decide))⟩,
    ⟨le_refl 1, claim_C7 2 Hex 1 [(1:ℚ), 2] [(0:ℚ)] (le_refl 1) (Or.inl (by decide))⟩⟩

/--
C3: variables are assigned indices `0..n-1` by sorting identifiers (the sorted
variable list is sorted and duplicate-free, so position equals rank), the
Hamiltonian term produced for matrix index `i` is the Pauli string whose only
`Z` is at position `i` (`quboStep` uses `makePauliString [i] n`), and the
circuit rotation generated from that term acts on qubit `i` (respectively
`(i, j)` for the `ZZ` term); `sample_solution` measures all qubits with no
reindexing, so each variable keeps the same qubit throughout.
-/
theorem claim_C3 (ts : List (ℚ × List ℕ)) (n i j : ℕ) (c g : ℚ)
    (hi : i < n) (hij : i < j) (hj : j < n) :
    ((sortedVars ts).Sorted (fun a b => a ≤ b) ∧ (sortedVars ts).Nodup)
      ∧ positionsOf PChar.Z (makePauliString [i] n) = [i]
      ∧ applyPauliTerm (makePauliString [i] n, c) g = [Gate.rz (2 * g * c) i]
      ∧ applyPauliTerm (makePauliString [i, j] n, c) g = [Gate.rzz (2 * g * c) i j] := by
  refine ⟨⟨?_, ?_⟩, positionsOf_Z_single n i hi, ?_, ?_⟩
  · exact List.sorted_insertionSort _ _
  · exact ((List.perm_insertionSort _ _).nodup_iff).mpr (List.nodup_dedup _)
  · unfold applyPauliTerm
    rw [show positionsOf PChar.Z (makePauliString [i] n, c).1 = [i]
      from positionsOf_Z_single n i hi]
    rw [show positionsOf PChar.X (makePauliString [i] n, c).1 = []
      from positionsOf_X_single n i hi]
    rfl
  · unfold applyPauliTerm
    rw [show positionsOf PChar.Z (makePauliString [i, j] n, c).1 = [i, j]
      from positionsOf_Z_pair n i j hij hj]
    rw [show positionsOf PChar.X (makePauliString [i, j] n, c).1 = []
      from positionsOf_X_pair n i j hij hj]
    rfl

theorem claim_C3_witness :
    ((0:ℕ) < 2 ∧ (0:ℕ) < 1 ∧ (1:ℕ) < 2)
      ∧ (((sortedVars tsEx).Sorted (fun a b => a ≤ b) ∧ (sortedVars tsEx).Nodup)
          ∧ positionsOf PChar.Z (makePauliString [0] 2) = [0]
          ∧ applyPauliTerm (makePauliString [0] 2, 1) 1 = [Gate.rz (2 * 1 * 1) 0]
          ∧ applyPauliTerm (makePauliString [0, 1] 2, 1) 1 = [Gate.rzz (2 * 1 * 1) 0 1]) :=
  ⟨⟨by decide, by decide, by decide⟩,
    claim_C3 tsEx 2 0 1 1 1 (by decide) (by decide) (by decide)⟩

/-
Embedding of the optimization-loop bookkeeping of `QAOARunner.optimize`
(src/qaoa_runner.py, lines 100-175) and `QAOAOptimizer.optimize`
(src/core/qaoa_optimizer.py, lines 26-94).  The estimator expectation is an
external oracle `E` on parameter vectors; `scipy.optimize.minimize` is
external and is abstracted by the list `ps` of parameter vectors at which it
calls the objective, together with the optional `nit` attribute of the
`OptimizeResult` it returns (absent for optimizers that do not report it).
-/

/--
One call of `objective_function` (src/qaoa_runner.py lines 105-136 and
src/core/qaoa_optimizer.py lines 29-51): increment the iteration counter and
append one `{iteration, params, cost}` record to the history.
-/
def objectiveStep (E : List ℚ → ℚ) (st : ℕ × List (ℕ × List ℚ × ℚ))
    (params : List ℚ) : ℕ × List (ℕ × List ℚ × ℚ) :=
  (st.1 + 1, st.2 ++ [(st.1 + 1, params, E params)])

/-- The state after the external optimizer has evaluated the objective at
each parameter vector of `ps` in order, starting from state `st`. -/
def evalLoop (E : List ℚ → ℚ) (ps : List (List ℚ))
    (st : ℕ × List (ℕ × List ℚ × ℚ)) : ℕ × List (ℕ × List ℚ × ℚ) :=
  ps.foldl (objectiveStep E) st

/-- The history returned by `optimize` (counter starts at 0, history empty). -/
def runnerHistory (E : List ℚ → ℚ) (ps : List (List ℚ)) : List (ℕ × List ℚ × ℚ) :=
  (evalLoop E ps (0, [])).2

/-- `num_iterations` of `QAOARunner.optimize` (src/qaoa_runner.py line 172):
the final value of the closure counter `iteration`. -/
def runnerNumIterations (E : List ℚ → ℚ) (ps : List (List ℚ)) : ℕ :=
  (evalLoop E ps (0, [])).1

/-- `num_iterations` of `QAOAOptimizer.optimize`
(src/core/qaoa_optimizer.py line 92): `getattr(result, 'nit',
self.iteration)` — the scipy result's `nit` when present, the evaluation
counter otherwise. -/
def coreNumIterations (E : List ℚ → ℚ) (ps : List (List ℚ)) (nit : Option ℕ) : ℕ :=
  nit.getD (evalLoop E ps (0, [])).1

/-- The expected history: the k-th objective evaluation (0-based) appends the
record `(k+1, ps[k], E ps[k])`. -/
def orderedRecords (E : List ℚ → ℚ) (ps : List (List ℚ)) : List (ℕ × List ℚ × ℚ) :=
  (List.range ps.length).map (fun k => (k + 1, ps.getD k [], E (ps.getD k [])))

theorem evalLoop_spec (E : List ℚ → ℚ) :
    ∀ (ps : List (List ℚ)) (it : ℕ) (h : List (ℕ × List ℚ × ℚ)),
      evalLoop E ps (it, h) =
        (it + ps.length,
          h ++ (List.range ps.length).map
            (fun k => (it + k + 1, ps.getD k [], E (ps.getD k [])))) := by
  intro ps
  induction ps with
  | nil =>
      intro it h
      simp [evalLoop]
  | cons p rest ih =>
      intro it h
      show evalLoop E rest (objectiveStep E (it, h) p) = _
      unfold objectiveStep
      rw [ih (it + 1) (h ++ [(it + 1, p, E p)])]
      rw [Prod.mk.injEq]
      refine ⟨?_, ?_⟩
      · simp only [List.length_cons]
        omega
      · rw [List.append_assoc]
        congr 1
        rw [List.singleton_append, List.length_cons, List.range_succ_eq_map,
          List.map_cons, List.map_map]
        have hmap2 : List.map
            ((fun k => (it + k + 1, (p :: rest).getD k [], E ((p :: rest).getD k []))) ∘
              Nat.succ) (List.range rest.length) =
            List.map (fun k => (it + 1 + k + 1, rest.getD k [], E (rest.getD k [])))
              (List.range rest.length) := by
          apply List.map_congr_left
          intro k _
          simp only [Function.comp_apply, List.getD_cons_succ]
          rw [Prod.mk.injEq]
          exact ⟨by omega, rfl⟩
        rw [hmap2]
        simp

theorem runnerHistory_spec (E : List ℚ → ℚ) (ps : List (List ℚ)) :
    runnerHistory E ps = orderedRecords E ps := by
  unfold runnerHistory orderedRecords
  rw [evalLoop_spec E ps 0 []]
  simp

/-- Five parameter proposals, as an external optimizer might generate. -/
def psEx : List (List ℚ) := [[1], [2], [3], [4], [5]]

/-- A constant expectation oracle. -/
def Eex : List ℚ → ℚ := fun _ => 0

/--
C9, counterexample: when the external `scipy` result carries `nit = 3` after
5 objective evaluations (as iteration-based optimizers such as SLSQP report —
`nit` counts optimizer iterations, not function evaluations),
`QAOAOptimizer.optimize` returns `num_iterations = getattr(result, 'nit',
self.iteration) = 3`, which differs from the 5 history records.
-/
theorem claim_C9_counterexample :
    (runnerHistory Eex psEx).length = 5
      ∧ coreNumIterations Eex psEx (some 3) = 3
      ∧ ¬ coreNumIterations Eex psEx (some 3) = (runnerHistory Eex psEx).length := by
  refine ⟨by decide, rfl, by decide⟩

/--
C9, amended: every objective evaluation appends exactly one
`(iteration, parameters, value)` record to the history, in evaluation order;
`QAOARunner.optimize` returns `num_iterations` equal to the number of history
records, while `QAOAOptimizer.optimize` returns the scipy result's `nit`
attribute when present and falls back to the evaluation counter (the number
of history records) only when `nit` is absent.
-/
theorem claim_C9_amended (E : List ℚ → ℚ) (ps : List (List ℚ)) (nit : Option ℕ) :
    runnerHistory E ps = orderedRecords E ps
      ∧ runnerNumIterations E ps = (runnerHistory E ps).length
      ∧ coreNumIterations E ps nit = nit.getD ((runnerHistory E ps).length) := by
  have hlen : (runnerHistory E ps).length = ps.length := by
    rw [runnerHistory_spec]
    unfold orderedRecords
    simp
  refine ⟨runnerHistory_spec E ps, ?_, ?_⟩
  · rw [hlen]
    unfold runnerNumIterations
    rw [evalLoop_spec E ps 0 []]
    simp
  · rw [hlen]
    unfold coreNumIterations
    rw [evalLoop_spec E ps 0 []]
    simp
